import Mathlib

/-!
Verification of the control-flow restructuring engine of revng-c
(`src/include/revng-c/RestructureCFGPass/RegionCFGTreeImpl.h`).

Two complementary shallow embeddings are developed:

1. A small-step relation `Step` on an abstract graph state `RState`,
   whose constructors correspond one-to-one to the graph mutations
   performed by `RegionCFG::untangle` and `RegionCFG::inflate`
   (virtual-sink insertion, dummy-node insertion, node/subgraph cloning
   with edge retargeting, dummy purging, empty-node removal).  It is used
   for the global invariants: acyclicity preservation and weight
   monotonicity of clone equivalence classes.

2. Executable, list-based embeddings (`CGraph`, `purgeDummies`,
   `untangleProcessConditional`, `inflateVisit`, the AST simplification
   passes) that follow the C++ control flow line by line, used for the
   functional-correctness claims, counterexamples and witnesses.

Graph nodes are identified by natural numbers (the stable integer id of
`BasicBlockNode`).  Code in `Utils.h`, `BasicBlockNode.h` and `ASTTree.h`
is not part of the sources at hand; where a definition depends on it, the
doc comment starts with "Modelled from the spec:".
-/

/-! ## Part A: abstract graph states and the mutation step relation -/

/-- Abstract state of a `RegionCFG`: the edge set, the set of currently
allocated nodes (`BlockNodes`), the per-node instruction weight, the
`isEmpty` flag (artificial/dummy nodes), and the clone-to-original map
(`CloneToOriginalMap` / equivalence classes of §3 of the design). -/
structure RState where
  edges : Finset (Nat × Nat)
  alive : Finset Nat
  weight : Nat → Nat
  emptyB : Nat → Bool
  orig : Nat → Nat

/-- Nonempty directed walks in an edge set: `ReachesPlus E u v` holds when
there is a path with at least one edge from `u` to `v`. -/
inductive ReachesPlus (E : Finset (Nat × Nat)) : Nat → Nat → Prop where
  | single {u v : Nat} : (u, v) ∈ E → ReachesPlus E u v
  | cons {u w v : Nat} : (u, w) ∈ E → ReachesPlus E w v → ReachesPlus E u v

/-- Acyclicity of an edge set.  `RegionCFG::isDAG` (lines 1577-1599)
reports a graph as a DAG exactly when no SCC has size greater than one and
no node has a self-loop, i.e. when no node lies on a nonempty cycle. -/
def isDAG (E : Finset (Nat × Nat)) : Prop := ∀ v, ¬ ReachesPlus E v v

/-- One graph mutation performed by `untangle`/`inflate` on a `RegionCFG`.
Each constructor records the exact edge/node rewriting done by the
corresponding code block; bookkeeping hypotheses state the freshness and
adjacency facts that hold at the call site in the code. -/
inductive Step : RState → RState → Prop where
  /-- Virtual sink insertion (`untangle` lines 613-617, `inflate` lines
  909-913): a fresh artificial node `F` is allocated and an edge from each
  exit node (here: any set `srcs` of nodes other than `F`) to `F` is
  added.  `addArtificialNode` yields a zero-weight empty node. -/
  | sinkInsert (s : RState) (F : Nat) (srcs : Finset Nat)
      (hF : F ∉ s.alive)
      (hFe : ∀ e ∈ s.edges, e.1 ≠ F ∧ e.2 ≠ F)
      (hsrc : F ∉ srcs) :
      Step s ⟨s.edges ∪ srcs.image (fun p => (p, F)),
              insert F s.alive,
              Function.update s.weight F 0,
              Function.update s.emptyB F true,
              Function.update s.orig F F⟩
  /-- Dummy insertion (`inflate` lines 1126-1187): a fresh artificial node
  `Dm` is allocated, the edges from a set `P` of predecessors of the
  candidate `C` (the already-visited ones) are retargeted to `Dm` via
  `moveEdgeTarget`, and the edge `(Dm, C)` is added. -/
  | dummyInsert (s : RState) (C Dm : Nat) (P : Finset Nat)
      (hDm : Dm ∉ s.alive)
      (hDme : ∀ e ∈ s.edges, e.1 ≠ Dm ∧ e.2 ≠ Dm)
      (hC : C ∈ s.alive)
      (hP : ∀ p ∈ P, (p, C) ∈ s.edges) :
      Step s ⟨(s.edges \ P.image (fun p => (p, C)))
                ∪ P.image (fun p => (p, Dm)) ∪ {(Dm, C)},
              insert Dm s.alive,
              Function.update s.weight Dm 0,
              Function.update s.emptyB Dm true,
              Function.update s.orig Dm Dm⟩
  /-- Cloning with edge retargeting.  Covers both the per-candidate
  `cloneNode` block of `inflate` (lines 1197-1241: the clone `F = {d}`
  receives an edge to every successor of the candidate `φ d`, and edges
  from not-yet-visited predecessors are retargeted onto it) and
  `cloneUntilExit` plus the subsequent `moveEdgeTarget` loop of `untangle`
  (lines 777-799 and 814-837: a fresh copy `F` of the
  postdominator-to-sink subgraph, with mirrored internal edges, edges to
  the sink, and retargeted predecessor edges).  The new edge set `E'`
  must justify every edge through the clone-to-original map `φ`:
  old-to-old edges existed before, and every edge incident to a clone has
  its `φ`-image in the old edge set.  Clones copy weight and kind and
  join the equivalence class of their original. -/
  | cloneRetarget (s : RState) (F : Finset Nat) (φ : Nat → Nat)
      (E' : Finset (Nat × Nat))
      (hF : ∀ f ∈ F, f ∉ s.alive ∧ (∀ e ∈ s.edges, e.1 ≠ f ∧ e.2 ≠ f)
              ∧ φ f ∈ s.alive)
      (hE : ∀ e ∈ E',
        (e.1 ∉ F → e.2 ∉ F → e ∈ s.edges) ∧
        (e.1 ∈ F → e.2 ∈ F → (φ e.1, φ e.2) ∈ s.edges) ∧
        (e.1 ∈ F → e.2 ∉ F → (φ e.1, e.2) ∈ s.edges) ∧
        (e.1 ∉ F → e.2 ∈ F → (e.1, φ e.2) ∈ s.edges)) :
      Step s ⟨E',
              s.alive ∪ F,
              fun n => if n ∈ F then s.weight (φ n) else s.weight n,
              fun n => if n ∈ F then s.emptyB (φ n) else s.emptyB n,
              fun n => if n ∈ F then s.orig (φ n) else s.orig n⟩
  /-- One iteration of `purgeDummies` (lines 398-435): an empty node `D`
  with exactly one predecessor `p` and one successor `q` is removed and
  the edge from `p` is retargeted onto `q` via `moveEdgeTarget`. -/
  | purgeDummy (s : RState) (D p q : Nat)
      (hD : D ∈ s.alive) (hDe : s.emptyB D = true)
      (hp : (p, D) ∈ s.edges) (hq : (D, q) ∈ s.edges)
      (hpu : ∀ e ∈ s.edges, e.2 = D → e.1 = p)
      (hqu : ∀ e ∈ s.edges, e.1 = D → e.2 = q)
      (hpD : p ≠ D) (hqD : q ≠ D) :
      Step s ⟨(s.edges \ {(p, D), (D, q)}) ∪ {(p, q)},
              s.alive.erase D,
              s.weight, s.emptyB, s.orig⟩
  /-- One removal performed by `purgeVirtualSink` (lines 438-463): an
  empty node `R` (the sink or one of its empty ancestors) is detached
  from all predecessors and successors and deallocated (`removeNode`,
  lines 192-210). -/
  | purgeEmpty (s : RState) (R : Nat)
      (hR : R ∈ s.alive) (hRe : s.emptyB R = true) :
      Step s ⟨s.edges.filter (fun e => e.1 ≠ R ∧ e.2 ≠ R),
              s.alive.erase R,
              s.weight, s.emptyB, s.orig⟩

/-- Reflexive-transitive closure: the whole mutation sequence performed by
one run of `untangle` followed by the combing loop of `inflate`. -/
def InflateRun : RState → RState → Prop := Relation.ReflTransGen Step

/-- Kind/emptiness discipline of `BasicBlockNode`.  Modelled from the
spec: a dummy is "a zero-weight artificial node" (§3 and the glossary),
so every node whose `isEmpty` flag is set carries weight zero. -/
def EmptyZero (s : RState) : Prop := ∀ n, s.emptyB n = true → s.weight n = 0

/-- Total weight of the equivalence class of an original node `v`: the
summed weight of all live nodes whose `CloneToOriginalMap` entry is `v`. -/
def classWeight (s : RState) (v : Nat) : Nat :=
  ∑ u ∈ s.alive.filter (fun u => s.orig u = v), s.weight u

/-- Concrete one-edge graph used to exercise the step relation. -/
def sWitA : RState :=
  ⟨{(0, 1)}, {0, 1}, fun _ => 1, fun _ => false, fun n => n⟩

/-- State obtained from `sWitA` by inserting the virtual sink `2` with the
single exit node `1`. -/
def sWitA1 : RState :=
  ⟨sWitA.edges ∪ ({1} : Finset Nat).image (fun p => (p, 2)),
   insert 2 sWitA.alive,
   Function.update sWitA.weight 2 0,
   Function.update sWitA.emptyB 2 true,
   Function.update sWitA.orig 2 2⟩

/-- Concrete graph used to exercise weight accounting: a single node `5`
of weight `7` and no edges. -/
def sWitB : RState :=
  ⟨∅, {5}, fun _ => 7, fun _ => false, fun n => n⟩

/-- State obtained from `sWitB` by cloning node `5` as node `9` (no edges
to transport). -/
def sWitB1 : RState :=
  ⟨∅, sWitB.alive ∪ {9},
   fun n => if n ∈ ({9} : Finset Nat) then sWitB.weight 5 else sWitB.weight n,
   fun n => if n ∈ ({9} : Finset Nat) then sWitB.emptyB 5 else sWitB.emptyB n,
   fun n => if n ∈ ({9} : Finset Nat) then sWitB.orig 5 else sWitB.orig n⟩

/-! ## Part B: the AST and its simplification passes -/

mutual
/-- AST nodes (§3 of the design).  `code` is a `CodeNode` (with the
`isEmpty` flag of its basic block and the optional successor child),
`seqn` a `SequenceNode`, `ifn` an `IfNode` (`check = true` for the
`IfCheckNode` subclass, which `dyn_cast<IfNode>` also matches), `scs` an
`ScsNode`, and `brkn`/`contn`/`setn` the `Break`/`Continue`/`Set`
variants.  A null `ASTNode *` is `ASTOpt.none`. -/
inductive ASTN where
  | code (empt : Bool) (child : ASTOpt)
  | seqn (children : ASTList)
  | ifn (check : Bool) (thenB : ASTOpt) (elseB : ASTOpt)
  | scs (body : ASTOpt)
  | brkn
  | contn
  | setn (child : ASTOpt)

/-- A possibly-null `ASTNode *`. -/
inductive ASTOpt where
  | none
  | some (node : ASTN)

/-- The ordered child list of a `SequenceNode`. -/
inductive ASTList where
  | nil
  | cons (head : ASTN) (tail : ASTList)
end

/-- Child count of a sequence (`SequenceNode::listSize`). -/
def lengthA : ASTList → Nat
  | .nil => 0
  | .cons _ tl => lengthA tl + 1

/-- Modelled from the spec: `ASTNode::isEmpty` (`ASTTree.h` is not under
src/).  Post-pass (b) "recursively drops empty leaves out of `Sequence`
children"; an empty leaf is a code node whose block carries no
instructions. -/
def isEmptyA : ASTN → Bool
  | .code e _ => e
  | _ => false

mutual
/-- Embedding of `createSequence` (lines 39-60): wrap the root in a fresh
one-element `SequenceNode` and, for an `IfNode` member, recursively wrap
its then/else branches (the `CodeNode` and `ScsNode` members are left
alone, as in the source). -/
def createSequence : ASTN → ASTN
  | .ifn c t e =>
      .seqn (.cons (.ifn c (createSequenceOpt t) (createSequenceOpt e)) .nil)
  | x => .seqn (.cons x .nil)

/-- `createSequence` applied through a nullable branch pointer
(`hasThen`/`hasElse` guards). -/
def createSequenceOpt : ASTOpt → ASTOpt
  | .none => .none
  | .some a => .some (createSequence a)
end

mutual
/-- Embedding of `simplifyDummies` (lines 63-88): inside a sequence,
remove the `isEmpty` children and recurse into the remaining ones; for an
`IfNode`, recurse into both branches; all other nodes are untouched.
The C++ function mutates in place, so it is a tree transformer here. -/
def simplifyDummies : ASTN → ASTN
  | .seqn cs => .seqn (simplifyDummiesL cs)
  | .ifn c t e => .ifn c (simplifyDummiesO t) (simplifyDummiesO e)
  | x => x

/-- Sequence-children loop of `simplifyDummies`: empty nodes are
collected in `UselessDummies` and removed, the others are visited. -/
def simplifyDummiesL : ASTList → ASTList
  | .nil => .nil
  | .cons a tl =>
      if isEmptyA a then simplifyDummiesL tl
      else .cons (simplifyDummies a) (simplifyDummiesL tl)

/-- `simplifyDummies` through a nullable branch pointer. -/
def simplifyDummiesO : ASTOpt → ASTOpt
  | .none => .none
  | .some a => .some (simplifyDummies a)
end

mutual
/-- Embedding of `simplifyAtomicSequence` (lines 92-121).  A sequence
with no children becomes null; a sequence with exactly one child is
replaced by the simplification of that child; for a sequence with two or
more children the source iterates `for (ASTNode *Node : Sequence->nodes())
{ Node = simplifyAtomicSequence(Node); }`, assigning the result to the
loop-local pointer copy, so only the in-place effects of the recursive
calls persist (`simplifyAtomicInPlace`) and the child slots themselves
are never replaced.  `IfNode` branches and `ScsNode` bodies are replaced
through `setThen`/`setElse`/`setBody`, so there the returned node (which
may be null) does persist. -/
def simplifyAtomicSequence : ASTN → ASTOpt
  | .seqn .nil => .none
  | .seqn (.cons a .nil) => simplifyAtomicSequence a
  | .seqn (.cons a (.cons b tl)) =>
      .some (.seqn (simplifyAtomicInPlaceL (.cons a (.cons b tl))))
  | .ifn c t e => .some (.ifn c (simplifyAtomicO t) (simplifyAtomicO e))
  | .scs b => .some (.scs (simplifyAtomicO b))
  | x => .some x

/-- `simplifyAtomicSequence` through a nullable pointer (`hasThen`,
`hasElse`, `hasBody` guards followed by the setter). -/
def simplifyAtomicO : ASTOpt → ASTOpt
  | .none => .none
  | .some a => simplifyAtomicSequence a

/-- Persistent effect of a call to `simplifyAtomicSequence` whose return
value is discarded: descendants reachable through `IfNode`/`ScsNode`
setters are fully simplified, while sequence child slots keep their
original nodes. -/
def simplifyAtomicInPlace : ASTN → ASTN
  | .seqn cs => .seqn (simplifyAtomicInPlaceL cs)
  | .ifn c t e => .ifn c (simplifyAtomicO t) (simplifyAtomicO e)
  | .scs b => .scs (simplifyAtomicO b)
  | x => x

/-- The discarded-result loop over the children of a sequence. -/
def simplifyAtomicInPlaceL : ASTList → ASTList
  | .nil => .nil
  | .cons a tl => .cons (simplifyAtomicInPlace a) (simplifyAtomicInPlaceL tl)
end

mutual
/-- Property claimed of the final AST: every `SequenceNode` remaining
anywhere in the tree has at least two children. -/
def seqAtLeastTwo : ASTN → Bool
  | .code _ c => seqAtLeastTwoO c
  | .seqn cs => decide (2 ≤ lengthA cs) && seqAtLeastTwoL cs
  | .ifn _ t e => seqAtLeastTwoO t && seqAtLeastTwoO e
  | .scs b => seqAtLeastTwoO b
  | .brkn => true
  | .contn => true
  | .setn c => seqAtLeastTwoO c

/-- The property through a nullable pointer. -/
def seqAtLeastTwoO : ASTOpt → Bool
  | .none => true
  | .some a => seqAtLeastTwo a

/-- The property over a child list. -/
def seqAtLeastTwoL : ASTList → Bool
  | .nil => true
  | .cons a tl => seqAtLeastTwo a && seqAtLeastTwoL tl
end

/-- The tail of `generateAst` (lines 1498-1519): sequence insertion, then
dummy simplification, then atomic-sequence simplification; the result is
stored as the tree root by `AST.setRoot(RootNode)` and may be null. -/
def astPostPasses (r : ASTN) : ASTOpt :=
  simplifyAtomicSequence (simplifyDummies (createSequence r))

/-- Input on which pass (c) fails to collapse a nested singleton
sequence: a two-child sequence whose second child is a one-child
sequence. -/
def astBugInput : ASTN :=
  .seqn (.cons (.code false .none)
    (.cons (.seqn (.cons (.code false .none) .nil)) .nil))

/-! ## Part C: executable region graphs and purgeDummies -/

/-- Executable region graph: `nodes` is the `BlockNodes` container in
allocation order (distinct stable ids), `succs` the ordered successor
list of each node (for a `Check` node, position 0 is the true successor
and position 1 the false successor), and `emptyN` the `isEmpty` flag.
Predecessor lists are derived from the successor lists. -/
structure CGraph where
  nodes : List Nat
  succs : Nat → List Nat
  emptyN : Nat → Bool

/-- Predecessors of `n`: the nodes whose successor list contains `n`
(`BasicBlockNode::predecessors`), in `BlockNodes` order. -/
def predsOf (g : CGraph) (n : Nat) : List Nat :=
  g.nodes.filter (fun m => (g.succs m).contains n)

/-- Modelled from the spec: `moveEdgeTarget` (`Utils.h`, not under src/)
repoints the single edge `e` onto the new target `tNew`, preserving the
position (hence the true/false slot of a `Check` source); edges are never
duplicated between the same ordered pair, so if the source already has an
edge to `tNew` the old edge is simply dropped. -/
def moveEdgeTarget (g : CGraph) (e : Nat × Nat) (tNew : Nat) : CGraph :=
  { g with
    succs := fun n =>
      if n = e.1 then
        (if (g.succs e.1).contains tNew then (g.succs e.1).erase e.2
         else (g.succs e.1).map (fun x => if x = e.2 then tNew else x))
      else g.succs n }

/-- The purge condition of `purgeDummies` (line 407): an empty node with
exactly one predecessor and exactly one successor. -/
def eligibleDummy (g : CGraph) (n : Nat) : Bool :=
  g.emptyN n && (predsOf g n).length == 1 && (g.succs n).length == 1

/-- The loop body of `purgeDummies` (lines 414-426): connect the unique
predecessor directly to the unique successor and remove the dummy. -/
def removeDummyNode (g : CGraph) (d : Nat) : CGraph :=
  let p := (predsOf g d).headD 0
  let t := (g.succs d).headD 0
  let g1 := moveEdgeTarget g (p, d) t
  { nodes := g1.nodes.erase d,
    succs := fun n => if n = d then [] else g1.succs n,
    emptyN := g1.emptyN }

/-- One pass of the scan in `purgeDummies`: the first node in
`BlockNodes` order satisfying the purge condition is removed (the source
then restarts the scan: `AnotherIteration = true; break`). -/
def purgeDummiesStep (g : CGraph) : Option CGraph :=
  match g.nodes.find? (fun n => eligibleDummy g n) with
  | Option.none => Option.none
  | Option.some d => Option.some (removeDummyNode g d)

/-- The `while (AnotherIteration)` loop; each iteration removes one node,
so `g.nodes.length` rounds always reach the fixed point. -/
def purgeDummiesGo : Nat → CGraph → CGraph
  | 0, g => g
  | fuel + 1, g =>
    match purgeDummiesStep g with
    | Option.none => g
    | Option.some g2 => purgeDummiesGo fuel g2

/-- Embedding of `RegionCFG::purgeDummies` (lines 398-435). -/
def purgeDummies (g : CGraph) : CGraph := purgeDummiesGo g.nodes.length g

/-- Chain `10 → 1 → 2 → 3` in which node `1` (the claim's `A`) is itself
an empty one-predecessor/one-successor node, in front of the dummy `2`
and the target `3`. -/
def gC7bad : CGraph :=
  { nodes := [10, 1, 2, 3],
    succs := fun n =>
      if n = 10 then [1] else if n = 1 then [2] else if n = 2 then [3]
      else [],
    emptyN := fun n => n = 1 || n = 2 }

/-- Invariant carried through the `purgeDummies` loop for a chain
`A → Dm → B` whose endpoints are non-empty: either the chain is still
intact (with `Dm`'s adjacency unchanged), or `Dm` has been purged and the
direct edge `A → B` is present. -/
def ChainInv (A Dm B : Nat) (g : CGraph) : Prop :=
  g.nodes.Nodup ∧ A ∈ g.nodes ∧ B ∈ g.nodes ∧
  g.emptyN A = false ∧ g.emptyN B = false ∧ g.emptyN Dm = true ∧
  ((Dm ∈ g.nodes ∧ predsOf g Dm = [A] ∧ g.succs Dm = [B])
    ∨ (Dm ∉ g.nodes ∧ B ∈ g.succs A))

/-- Chain `0 → 1 → 2 → 3` where only node `2` is an empty dummy. -/
def gC7good : CGraph :=
  { nodes := [0, 1, 2, 3],
    succs := fun n =>
      if n = 0 then [1] else if n = 1 then [2] else if n = 2 then [3]
      else [],
    emptyN := fun n => n = 2 }

/-! ## Part D: dominance and the untangle pre-pass -/

/-- Saturation-based forward reachability with explicit fuel: one round
adds the successors of every node collected so far, keeping first-seen
order and no duplicates; iteration stops at the fixed point. -/
def reachGo (g : CGraph) : Nat → List Nat → List Nat
  | 0, acc => acc
  | fuel + 1, acc =>
    let nxt := acc.foldl (fun l n =>
      (g.succs n).foldl
        (fun l2 x => if l2.contains x then l2 else l2 ++ [x]) l) acc
    if nxt.length = acc.length then acc
    else reachGo g fuel nxt

/-- Nodes reachable from `s` (inverse of `llvm::inverse_depth_first` style
reachability queries, as a set). -/
def reachableFrom (g : CGraph) (s : Nat) : List Nat :=
  reachGo g (g.nodes.length + 1) [s]

/-- The graph with the successors of `t` cut off, so traversals stop at
`t`. -/
def stopGraph (g : CGraph) (t : Nat) : CGraph :=
  { g with succs := fun n => if n = t then [] else g.succs n }

/-- Modelled from the spec: `findReachableNodes(Source, Target)`
(`Utils.h`, not under src/) collects "the set of nodes reachable from
that successor up to (excluding) P" (§4.3 step 2) — the traversal stops
at the target, the target itself being included (the callers erase it
explicitly) — and is also used for "everything reachable from P to the
sink" (§4.3 step 4). -/
def findReachableNodes (g : CGraph) (src tgt : Nat) : List Nat :=
  reachGo (stopGraph g tgt) (g.nodes.length + 1) [src]

/-- The graph with the node `a` disconnected (no edges in or out),
used for dominance queries by node removal. -/
def avoidGraph (g : CGraph) (a : Nat) : CGraph :=
  { g with succs := fun n =>
      if n = a then [] else (g.succs n).filter (fun x => !(x == a)) }

/-- Modelled from the spec: the Dominance Oracle (§4.2) wraps
`llvm::DominatorTreeBase` over the current graph.  `a` dominates `b` iff
`a = b` or every path from the entry to `b` passes through `a`, i.e. `b`
is unreachable from the entry once `a` is removed. -/
def dominates (g : CGraph) (entry a b : Nat) : Bool :=
  a == b || !((reachGo (avoidGraph g a) (g.nodes.length + 1) [entry]).contains b)

/-- Modelled from the spec: `a` post-dominates `b` iff `a = b` or every
path from `b` to the sink passes through `a`. -/
def postDominates (g : CGraph) (sink a b : Nat) : Bool :=
  a == b || !((reachGo (avoidGraph g a) (g.nodes.length + 1) [b]).contains sink)

/-- Strict post-domination. -/
def strictPostDom (g : CGraph) (sink a b : Nat) : Bool :=
  (a != b) && postDominates g sink a b

/-- Modelled from the spec: the immediate post-dominator
(`PDT[Cond]->getIDom()->getBlock()`): the strict post-dominator of `v`
that every other strict post-dominator of `v` post-dominates. -/
def ipdom (g : CGraph) (sink v : Nat) : Option Nat :=
  (g.nodes.filter (fun p => strictPostDom g sink p v
      && g.nodes.all (fun q => !(strictPostDom g sink q v) || (q == p)
            || postDominates g sink q p))).head?

/-- Sum of the precomputed `WeightMap` over a node list. -/
def sumWeights (w : Nat → Nat) (l : List Nat) : Nat := (l.map w).sum

/-- The `MultiplicativeFactor` constant of `isGreater` (line 491). -/
def untangleMultiplicativeFactor : Nat := 1

/-- Embedding of `isGreater` (lines 490-497): strict integer greater-than
with the multiplicative factor fixed at 1. -/
def isGreater (Op1 Op2 : Nat) : Bool :=
  if Op1 > untangleMultiplicativeFactor * Op2 then true else false

/-- Largest node id, for allocating fresh clone ids. -/
def maxNode (g : CGraph) : Nat := g.nodes.foldr max 0

/-- Embedding of `cloneUntilExit` (lines 499-581): clone every node
reachable from `Node` (the postdominator), excluding the sink; internal
edges are mirrored between the clones (true/false slots keep their
positions) and edges to the sink are redirected to the shared sink.
Returns the enlarged graph and the clone of `Node`.  Clone ids are the
original ids shifted past `maxNode`. -/
def cloneUntilExit (g : CGraph) (nd sink : Nat) : CGraph × Nat :=
  let base := maxNode g + 1
  let S := (reachableFrom g nd).filter (fun x => !(x == sink))
  ({ nodes := g.nodes ++ S.map (fun u => u + base),
     succs := fun n =>
       if base ≤ n ∧ (n - base) ∈ S then
         (g.succs (n - base)).map (fun v => if v = sink then sink else v + base)
       else g.succs n,
     emptyN := fun n =>
       if base ≤ n ∧ (n - base) ∈ S then g.emptyN (n - base) else g.emptyN n },
   nd + base)

/-- The set "laying between" the true branch and the postdominator
(lines 674-681): reachable nodes up to `pd`, with `pd` erased. -/
def untangleThenNodes (g : CGraph) (c pd : Nat) : List Nat :=
  (findReachableNodes g ((g.succs c).getD 0 0) pd).erase pd

/-- The same set for the false branch (lines 677-682). -/
def untangleElseNodes (g : CGraph) (c pd : Nat) : List Nat :=
  (findReachableNodes g ((g.succs c).getD 1 0) pd).erase pd

/-- `NotDominatedThenNodes` (lines 684-689). -/
def untangleNotDomThen (g : CGraph) (entry c pd : Nat) : List Nat :=
  (untangleThenNodes g c pd).filter (fun n => !(dominates g entry c n))

/-- `NotDominatedElseNodes` (lines 691-696). -/
def untangleNotDomElse (g : CGraph) (entry c pd : Nat) : List Nat :=
  (untangleElseNodes g c pd).filter (fun n => !(dominates g entry c n))

/-- The `Intersection` of the two reachable sets (lines 706-711),
computed after the postdominator has been erased from both. -/
def untangleIntersection (g : CGraph) (c pd : Nat) : List Nat :=
  (untangleThenNodes g c pd).filter
    (fun n => (untangleElseNodes g c pd).contains n)

/-- `ThenWeight` (lines 719-724): the weights summed over the
not-dominated then-side nodes. -/
def untangleThenWeight (g : CGraph) (w : Nat → Nat) (entry c pd : Nat) : Nat :=
  sumWeights w (untangleNotDomThen g entry c pd)

/-- `ElseWeight` (lines 720-728). -/
def untangleElseWeight (g : CGraph) (w : Nat → Nat) (entry c pd : Nat) : Nat :=
  sumWeights w (untangleNotDomElse g entry c pd)

/-- `PostDominatorWeight` (lines 730-740): everything reachable from the
immediate postdominator to the sink. -/
def untanglePostDomWeight (g : CGraph) (w : Nat → Nat) (pd sink : Nat) : Nat :=
  sumWeights w (findReachableNodes g pd sink)

/-- The splitting block of `untangle` (lines 765-800 and 802-838): clone
the postdominator-to-sink subgraph and move every predecessor edge of the
postdominator whose source is dominated by `armChild` (the arm being
given its own continuation) or is the conditional itself onto the clone.
The `revng_assert(PostDominatorClone->predecessor_size() > 0)` abort is
`Option.none`. -/
def untangleSplit (g : CGraph) (entry c pd sink armChild : Nat) :
    Option CGraph :=
  let gc := cloneUntilExit g pd sink
  let movedPreds := (predsOf gc.1 pd).filter
    (fun p => dominates g entry armChild p || p == c)
  if movedPreds.length > 0 then
    Option.some (movedPreds.foldl
      (fun gg p => moveEdgeTarget gg (p, pd) gc.2) gc.1)
  else Option.none

/-- Embedding of one iteration of the per-conditional loop of `untangle`
(lines 647-839), for the conditional `c` whose tracked immediate
postdominator (`PostDominatorMap[Conditional]`) is `pd`, over the graph
with the virtual sink already attached and the precomputed `WeightMap`
`w`.  `Option.none` is an unconditional abort (`revng_assert`); a `some`
result is the graph state after the iteration. -/
def untangleProcessConditional (g : CGraph) (w : Nat → Nat)
    (entry sink c pd : Nat) : Option CGraph :=
  if (g.succs c).length = 2 then
    if 0 < (untangleNotDomThen g entry c pd).length
        ∧ 0 < (untangleNotDomElse g entry c pd).length then Option.some g
    else if 0 < (untangleIntersection g c pd).length then Option.some g
    else if isGreater
          (untangleThenWeight g w entry c pd
            + untanglePostDomWeight g w pd sink)
          (untangleElseWeight g w entry c pd
            + untanglePostDomWeight g w pd sink) = true
        ∧ isGreater
          (untangleThenWeight g w entry c pd
            + untangleElseWeight g w entry c pd)
          (untangleElseWeight g w entry c pd
            + untanglePostDomWeight g w pd sink) = true
        ∧ pd ≠ sink then
      untangleSplit g entry c pd sink ((g.succs c).getD 1 0)
    else if isGreater
          (untangleElseWeight g w entry c pd
            + untanglePostDomWeight g w pd sink)
          (untangleThenWeight g w entry c pd
            + untanglePostDomWeight g w pd sink) = true
        ∧ isGreater
          (untangleThenWeight g w entry c pd
            + untangleElseWeight g w entry c pd)
          (untangleThenWeight g w entry c pd
            + untanglePostDomWeight g w pd sink) = true
        ∧ pd ≠ sink then
      untangleSplit g entry c pd sink ((g.succs c).getD 0 0)
    else Option.some g
  else Option.none

/-- Diamond in which the conditional's immediate postdominator is the
virtual sink itself: entry `0` with successors the conditional `1` and
the outside path `2`; conditional `1` branches to `3` (then) and `4`
(else); `3 → 5`, `2 → 5` (so `5` is reachable from outside and not
dominated by `1`); `4` and `5` are exits, both wired to the sink `6`. -/
def gC4bad : CGraph :=
  { nodes := [0, 1, 2, 3, 4, 5, 6],
    succs := fun n =>
      if n = 0 then [1, 2] else if n = 1 then [3, 4] else if n = 2 then [5]
      else if n = 3 then [5] else if n = 4 then [6] else if n = 5 then [6]
      else [],
    emptyN := fun n => n = 6 }

/-- `WeightMap` for `gC4bad`: the shared node `5` weighs 5, the sink 0,
everything else 1. -/
def wC4bad : Nat → Nat := fun n => if n = 5 then 5 else if n = 6 then 0 else 1

/-- Graph on which the untangle split fires: entry `0` feeds the
conditional `1` and the outside path `2`; `1` branches to `3` (then,
weight 5, also reachable from `2`) and `4` (else); both arms join at the
postdominator `5`, which exits to the sink `6`. -/
def gC4good : CGraph :=
  { nodes := [0, 1, 2, 3, 4, 5, 6],
    succs := fun n =>
      if n = 0 then [1, 2] else if n = 1 then [3, 4] else if n = 2 then [3]
      else if n = 3 then [5] else if n = 4 then [5] else if n = 5 then [6]
      else [],
    emptyN := fun n => n = 6 }

/-- `WeightMap` for `gC4good`. -/
def wC4good : Nat → Nat :=
  fun n => if n = 3 then 5 else if n = 6 then 0 else 1

/-- Double-diamond sharing an intermediate node: the conditional `0`
branches to `1` and `2`, both of which reach the shared node `3` as well
as the join `4`; `4` exits to the sink `5`.  The arms' reachable sets
intersect in `3`. -/
def gC5wit : CGraph :=
  { nodes := [0, 1, 2, 3, 4, 5],
    succs := fun n =>
      if n = 0 then [1, 2] else if n = 1 then [3, 4] else if n = 2 then [3, 4]
      else if n = 3 then [4] else if n = 4 then [5]
      else [],
    emptyN := fun n => n = 5 }

/-! ## Part E: the per-candidate visit of the inflate comb loop -/

/-- Insertion into a `SmallPtrSet` (no duplicates, first-insertion
order). -/
def insertSet (l : List Nat) (x : Nat) : List Nat :=
  if l.contains x then l else l ++ [x]

/-- `WorkList.insert(Successor)` over all successors (lines 1098-1100 and
1104-1106). -/
def enqueueSuccs (wl : List Nat) (ss : List Nat) : List Nat :=
  ss.foldl insertSet wl

/-- `RevPostOrderList.insert(ListIt, x)` with the iterator standing on
`at0`: insert `x` immediately before the first occurrence of `at0`. -/
def insertBefore (l : List Nat) (at0 x : Nat) : List Nat :=
  match l with
  | [] => [x]
  | a :: tl => if a = at0 then x :: a :: tl else a :: insertBefore tl at0 x

/-- State of the combing loop of `inflate` while one conditional
(`curCond`) is being processed: the graph, `WorkList`, `Visited`,
`RevPostOrderList`, `PostDominatorMap`, `NodesEquivalenceClass`,
`CloneToOriginalMap`, the stack `ConditionalNodes` and the set
`ConditionalNodesComplete`, the virtual sink, and the id allocator for
`addArtificialNode`/`cloneNode`. -/
structure InfState where
  g : CGraph
  workList : List Nat
  visited : List Nat
  rpoList : List Nat
  postDomMap : Nat → Nat
  eqClass : Nat → List Nat
  cloneToOrig : Nat → Nat
  conditionalNodes : List Nat
  conditionalsComplete : List Nat
  curCond : Nat
  sink : Nat
  nextId : Nat

/-- Embedding of `predecessorsVisited` (lines 124-139). -/
def predecessorsVisitedB (s : InfState) (n : Nat) : Bool :=
  (predsOf s.g n).all (fun p => s.visited.contains p)

/-- Outcome of one iteration of the inner `while (!WorkList.empty())`
loop: `brk` for the `break` at line 1089, otherwise the updated state. -/
inductive VisitOutcome where
  | brk
  | cont (s : InfState)

/-- The state carried by a non-`break` outcome. -/
def outState : VisitOutcome → Option InfState
  | .brk => Option.none
  | .cont s => Option.some s

/-- The dummy-insertion branch (lines 1126-1187): allocate the fresh
artificial node `nextId`, insert it into the reverse-post-order list
before the candidate, un-visit and re-queue the candidate, give the dummy
its own equivalence class and clone-to-original entry, repoint
`PostDominatorMap[Conditional]` at the dummy when the candidate is
non-empty or is the sink, enqueue the dummy, move the edges from
already-visited predecessors onto the dummy, and add the edge from the
dummy to the candidate. -/
def inflateInsertDummy (s : InfState) (cand : Nat) (isPostDom : Bool) :
    InfState :=
  let dm := s.nextId
  let visited2 := s.visited.erase cand
  let movedG := (predsOf s.g cand).foldl
    (fun gg p =>
      if visited2.contains p then moveEdgeTarget gg (p, cand) dm else gg)
    s.g
  { s with
    g := { nodes := movedG.nodes ++ [dm],
           succs := fun n => if n = dm then [cand] else movedG.succs n,
           emptyN := fun n => if n = dm then true else movedG.emptyN n },
    workList := insertSet (insertSet s.workList cand) dm,
    visited := visited2,
    rpoList := insertBefore s.rpoList cand dm,
    postDomMap :=
      if isPostDom && (!(s.g.emptyN cand) || (cand == s.sink)) then
        fun n => if n = s.curCond then dm else s.postDomMap n
      else s.postDomMap,
    eqClass := fun n => if n = dm then [dm] else s.eqClass n,
    cloneToOrig := fun n => if n = dm then dm else s.cloneToOrig n,
    nextId := s.nextId + 1 }

/-- The duplication branch (lines 1189-1241): allocate the clone
`nextId` of the candidate (copying kind/emptiness; its ordered successor
list is the candidate's, which for a `Check` preserves the true/false
slots via `setTrue`/`setFalse`), insert it into the reverse-post-order
list before the candidate, record it in the candidate's original's
equivalence class, re-register it as a conditional (with the same
postdominator entry) when the candidate is one, and move the edges from
not-yet-visited predecessors onto the clone. -/
def inflateCloneCandidate (s : InfState) (cand : Nat) : InfState :=
  let dup := s.nextId
  let orig := s.cloneToOrig cand
  let isCond := s.conditionalsComplete.contains cand
  let gClone : CGraph :=
    { nodes := s.g.nodes ++ [dup],
      succs := fun n => if n = dup then s.g.succs cand else s.g.succs n,
      emptyN := fun n => if n = dup then s.g.emptyN cand else s.g.emptyN n }
  let g2 := (predsOf s.g cand).foldl
    (fun gg p =>
      if s.visited.contains p then gg else moveEdgeTarget gg (p, cand) dup)
    gClone
  { s with
    g := g2,
    rpoList := insertBefore s.rpoList cand dup,
    cloneToOrig := fun n => if n = dup then orig else s.cloneToOrig n,
    eqClass := fun n =>
      if n = orig then insertSet (s.eqClass orig) dup else s.eqClass n,
    conditionalNodes :=
      if isCond then s.conditionalNodes ++ [dup] else s.conditionalNodes,
    conditionalsComplete :=
      if isCond then insertSet s.conditionalsComplete dup
      else s.conditionalsComplete,
    postDomMap :=
      if isCond then
        fun n => if n = dup then s.postDomMap cand else s.postDomMap n
      else s.postDomMap,
    nextId := s.nextId + 1 }

/-- The dummy-versus-duplicate decision (line 1126): a dummy only when
the candidate has more than two predecessors AND is the (equivalence
class of the) tracked postdominator; otherwise the candidate is
cloned. -/
def inflateMutate (s : InfState) (cand : Nat) (isPostDom : Bool) :
    VisitOutcome :=
  if 2 < (predsOf s.g cand).length ∧ isPostDom = true then
    .cont (inflateInsertDummy s cand isPostDom)
  else
    .cont (inflateCloneCandidate s cand)

/-- Embedding of one iteration of the inner worklist loop of `inflate`
(lines 1059-1242) with the reverse-post-order cursor standing on `cand`.
The iterator repositioning (`ListIt--`) and the per-iteration
`purgeDummies` call (lines 1252-1263) belong to the surrounding loop and
are not part of this step. -/
def inflateVisit (s : InfState) (cand : Nat) : VisitOutcome :=
  if s.workList.contains cand = false then .cont s
  else if (s.eqClass (s.postDomMap s.curCond)).contains cand then
    if predecessorsVisitedB s cand = false then
      inflateMutate
        { s with visited := insertSet s.visited cand,
                 workList := s.workList.erase cand } cand true
    else .brk
  else if predecessorsVisitedB s cand = false then
    inflateMutate
      { s with visited := insertSet s.visited cand,
               workList := enqueueSuccs (s.workList.erase cand)
                 (s.g.succs cand) } cand false
  else
    .cont { s with visited := insertSet s.visited cand,
                   workList := enqueueSuccs (s.workList.erase cand)
                     (s.g.succs cand) }

/-- Mid-inflate state in which the candidate `3` is the tracked immediate
postdominator of the conditional `0`, has the two predecessors `1`
(visited) and `2` (not visited), and is the next worklist element. -/
def sC3bad : InfState :=
  { g := { nodes := [0, 1, 2, 3, 4],
           succs := fun n =>
             if n = 0 then [1, 2] else if n = 1 then [3]
             else if n = 2 then [3] else if n = 3 then [4] else [],
           emptyN := fun _ => false },
    workList := [3],
    visited := [0, 1],
    rpoList := [0, 1, 2, 3, 4],
    postDomMap := fun _ => 3,
    eqClass := fun n => [n],
    cloneToOrig := fun n => n,
    conditionalNodes := [],
    conditionalsComplete := [0],
    curCond := 0,
    sink := 4,
    nextId := 100 }

/-- Mid-inflate state in which the candidate `4` is the tracked immediate
postdominator of the conditional `0` and has three predecessors `1`
(visited), `2` (visited) and `3` (not visited). -/
def sC3good : InfState :=
  { g := { nodes := [0, 1, 2, 3, 4, 5],
           succs := fun n =>
             if n = 0 then [1, 2] else if n = 1 then [4]
             else if n = 2 then [4] else if n = 3 then [4]
             else if n = 4 then [5] else [],
           emptyN := fun _ => false },
    workList := [4],
    visited := [0, 1, 2],
    rpoList := [0, 1, 2, 3, 4, 5],
    postDomMap := fun _ => 4,
    eqClass := fun n => [n],
    cloneToOrig := fun n => n,
    conditionalNodes := [],
    conditionalsComplete := [0],
    curCond := 0,
    sink := 5,
    nextId := 100 }

/-! ## Part A: theorems -/

theorem reachesPlus_trans {E : Finset (Nat × Nat)} {a b c : Nat}
    (h1 : ReachesPlus E a b) (h2 : ReachesPlus E b c) :
    ReachesPlus E a c := by
  induction h1 with
  | single h => exact .cons h h2
  | cons h _ ih => exact .cons h (ih h2)

theorem reachesPlus_exists_out {E : Finset (Nat × Nat)} {a b : Nat}
    (h : ReachesPlus E a b) : ∃ w, (a, w) ∈ E := by
  cases h with
  | single h => exact ⟨b, h⟩
  | cons h _ => exact ⟨_, h⟩

theorem reachesPlus_map {E E' : Finset (Nat × Nat)} (f : Nat → Nat)
    (h : ∀ u v, (u, v) ∈ E' → (f u, f v) ∈ E) :
    ∀ {a b}, ReachesPlus E' a b → ReachesPlus E (f a) (f b) := by
  intro a b hr
  induction hr with
  | single h1 => exact .single (h _ _ h1)
  | cons h1 _ ih => exact .cons (h _ _ h1) ih

theorem reachesPlus_of_reaches {E E' : Finset (Nat × Nat)}
    (h : ∀ u v, (u, v) ∈ E' → ReachesPlus E u v) :
    ∀ {a b}, ReachesPlus E' a b → ReachesPlus E a b := by
  intro a b hr
  induction hr with
  | single h1 => exact h _ _ h1
  | cons h1 _ ih => exact reachesPlus_trans (h _ _ h1) ih

/-- A strictly edge-increasing ranking certifies acyclicity. -/
theorem ranking_isDAG {E : Finset (Nat × Nat)} (r : Nat → Nat)
    (h : ∀ e ∈ E, r e.1 < r e.2) : isDAG E := by
  have key : ∀ {a b}, ReachesPlus E a b → r a < r b := by
    intro a b hr
    induction hr with
    | single h1 => exact h _ h1
    | cons h1 _ ih => exact lt_trans (h _ h1) ih
  intro v hv
  exact lt_irrefl _ (key hv)

/-- Replacing each edge by a nonempty walk of a DAG preserves acyclicity:
covers `purgeDummies` iterations and node removals. -/
theorem isDAG_of_reaches {E E' : Finset (Nat × Nat)}
    (h : ∀ u v, (u, v) ∈ E' → ReachesPlus E u v) (hd : isDAG E) :
    isDAG E' :=
  fun v hv => hd v (reachesPlus_of_reaches h hv)

/-- Adding a fresh node `F` that only receives edges preserves
acyclicity: covers virtual-sink insertion. -/
theorem isDAG_sinkExtend {E NE : Finset (Nat × Nat)} {F : Nat}
    (hT : ∀ e ∈ NE, e.2 = F ∧ e.1 ≠ F)
    (hFe : ∀ e ∈ E, e.1 ≠ F ∧ e.2 ≠ F)
    (hd : isDAG E) : isDAG (E ∪ NE) := by
  have noOut : ∀ x, (F, x) ∉ E ∪ NE := by
    intro x hx
    rcases Finset.mem_union.1 hx with h | h
    · exact (hFe _ h).1 rfl
    · exact (hT _ h).2 rfl
  have helper : ∀ {a b}, ReachesPlus (E ∪ NE) a b → b ≠ F →
      ReachesPlus E a b ∧ a ≠ F := by
    intro a b hr
    induction hr with
    | @single u v h1 =>
      intro hb
      rcases Finset.mem_union.1 h1 with h | h
      · exact ⟨.single h, (hFe _ h).1⟩
      · exact absurd (hT _ h).1 hb
    | @cons u w v h1 htail ih =>
      intro hb
      have hw : w ≠ F := by
        intro hwF
        subst hwF
        obtain ⟨x, hx⟩ := reachesPlus_exists_out htail
        exact noOut x hx
      obtain ⟨hwb, _⟩ := ih hb
      rcases Finset.mem_union.1 h1 with h | h
      · exact ⟨.cons h hwb, (hFe _ h).1⟩
      · exact absurd (hT _ h).1 hw
  intro v hv
  by_cases hvF : v = F
  · subst hvF
    obtain ⟨x, hx⟩ := reachesPlus_exists_out hv
    exact noOut x hx
  · exact hd v (helper hv hvF).1

/-- Interposing a fresh dummy `Dm` in front of a node `C` (retargeting
the edges from a set `P` of predecessors of `C` onto `Dm` and adding
`(Dm, C)`) preserves acyclicity. -/
theorem isDAG_dummyInsert {E : Finset (Nat × Nat)} {C Dm : Nat}
    {P : Finset Nat}
    (hDme : ∀ e ∈ E, e.1 ≠ Dm ∧ e.2 ≠ Dm)
    (hC : C ≠ Dm)
    (hP : ∀ p ∈ P, (p, C) ∈ E)
    (hd : isDAG E) :
    isDAG ((E \ P.image (fun p => (p, C)))
            ∪ P.image (fun p => (p, Dm)) ∪ {(Dm, C)}) := by
  have hPDm : Dm ∉ P := fun h => (hDme _ (hP _ h)).1 rfl
  have mem_E : ∀ u v,
      ((u, v) ∈ (E \ P.image (fun p => (p, C)))
            ∪ P.image (fun p => (p, Dm)) ∪ {(Dm, C)}) ↔
      (((u, v) ∈ E ∧ ¬(u ∈ P ∧ v = C)) ∨ (u ∈ P ∧ v = Dm)
        ∨ (u = Dm ∧ v = C)) := by
    intro u v
    simp only [Finset.mem_union, Finset.mem_sdiff, Finset.mem_image,
      Finset.mem_singleton, Prod.mk.injEq, Prod.ext_iff]
    constructor
    · rintro ((⟨h1, h2⟩ | ⟨p, hp, h1, h2⟩) | h)
      · exact Or.inl ⟨h1, fun ⟨hu, hv⟩ => h2 ⟨u, hu, rfl, hv.symm⟩⟩
      · exact Or.inr (Or.inl ⟨h1 ▸ hp, h2.symm⟩)
      · exact Or.inr (Or.inr ⟨h.1, h.2⟩)
    · rintro (⟨h1, h2⟩ | ⟨h1, h2⟩ | ⟨h1, h2⟩)
      · exact Or.inl (Or.inl ⟨h1, fun ⟨p, hp, hpu, hpv⟩ =>
          h2 ⟨hpu ▸ hp, hpv.symm⟩⟩)
      · exact Or.inl (Or.inr ⟨u, h1, rfl, h2.symm⟩)
      · exact Or.inr ⟨h1, h2⟩
  have H1 : ∀ {a b},
      ReachesPlus ((E \ P.image (fun p => (p, C)))
            ∪ P.image (fun p => (p, Dm)) ∪ {(Dm, C)}) a b → b ≠ Dm →
      (a = Dm → (b = C ∨ ReachesPlus E C b))
        ∧ (a ≠ Dm → ReachesPlus E a b) := by
    intro a b hr
    induction hr with
    | @single u v h1 =>
      intro hb
      rcases (mem_E u v).1 h1 with ⟨hE1, _⟩ | ⟨_, hv⟩ | ⟨hu, hv⟩
      · exact ⟨fun haD => absurd haD (hDme _ hE1).1,
               fun _ => .single hE1⟩
      · exact absurd hv hb
      · exact ⟨fun _ => Or.inl hv, fun h => absurd hu h⟩
    | @cons u w v h1 htail ih =>
      intro hb
      by_cases hw : w = Dm
      · have h1d : (u, Dm) ∈ (E \ P.image (fun p => (p, C)))
            ∪ P.image (fun p => (p, Dm)) ∪ {(Dm, C)} := hw ▸ h1
        rcases (mem_E u Dm).1 h1d with ⟨hE1, _⟩ | ⟨huP, _⟩ | ⟨_, hvC⟩
        · exact absurd rfl (hDme _ hE1).2
        · have huC : (u, C) ∈ E := hP _ huP
          have huDm : u ≠ Dm := (hDme _ huC).1
          rcases (ih hb).1 hw with hbC | hCb
          · refine ⟨fun haD => absurd haD huDm, fun _ => ?_⟩
            rw [hbC]
            exact .single huC
          · exact ⟨fun haD => absurd haD huDm,
                   fun _ => .cons huC hCb⟩
        · exact absurd hvC.symm hC
      · have hwb : ReachesPlus E w v := (ih hb).2 hw
        rcases (mem_E u w).1 h1 with ⟨hE1, _⟩ | ⟨_, hv⟩ | ⟨hu, hv⟩
        · exact ⟨fun haD => absurd haD (hDme _ hE1).1,
                 fun _ => .cons hE1 hwb⟩
        · exact absurd hv hw
        · exact ⟨fun _ => Or.inr (hv ▸ hwb), fun h => absurd hu h⟩
  have H2 : ∀ {a b},
      ReachesPlus ((E \ P.image (fun p => (p, C)))
            ∪ P.image (fun p => (p, Dm)) ∪ {(Dm, C)}) a b → b = Dm →
      a ≠ Dm → ∃ p ∈ P, (a = p ∨ ReachesPlus E a p) := by
    intro a b hr
    induction hr with
    | @single u v h1 =>
      intro hb ha
      rcases (mem_E u v).1 h1 with ⟨hE1, _⟩ | ⟨huP, _⟩ | ⟨hu, _⟩
      · exact absurd hb (hDme _ hE1).2
      · exact ⟨u, huP, Or.inl rfl⟩
      · exact absurd hu ha
    | @cons u w v h1 htail ih =>
      intro hb ha
      by_cases hw : w = Dm
      · have h1d : (u, Dm) ∈ (E \ P.image (fun p => (p, C)))
            ∪ P.image (fun p => (p, Dm)) ∪ {(Dm, C)} := hw ▸ h1
        rcases (mem_E u Dm).1 h1d with ⟨hE1, _⟩ | ⟨huP, _⟩ | ⟨hu, _⟩
        · exact absurd rfl (hDme _ hE1).2
        · exact ⟨u, huP, Or.inl rfl⟩
        · exact absurd hu ha
      · obtain ⟨p, hpP, hwp⟩ := ih hb hw
        rcases (mem_E u w).1 h1 with ⟨hE1, _⟩ | ⟨_, hv⟩ | ⟨hu, hv⟩
        · refine ⟨p, hpP, Or.inr ?_⟩
          rcases hwp with rfl | hwp
          · exact .single hE1
          · exact .cons hE1 hwp
        · exact absurd hv hw
        · exact absurd hu ha
  intro v hv
  by_cases hvD : v = Dm
  · have hv2 : ReachesPlus ((E \ P.image (fun p => (p, C)))
        ∪ P.image (fun p => (p, Dm)) ∪ {(Dm, C)}) Dm Dm := hvD ▸ hv
    cases hv2 with
    | single h1 =>
      rcases (mem_E Dm Dm).1 h1 with ⟨hE1, _⟩ | ⟨huP, _⟩ | ⟨_, hv3⟩
      · exact (hDme _ hE1).1 rfl
      · exact hPDm huP
      · exact hC hv3.symm
    | cons h1 htail =>
      rename_i w
      rcases (mem_E Dm w).1 h1 with ⟨hE1, _⟩ | ⟨huP, _⟩ | ⟨_, hv3⟩
      · exact (hDme _ hE1).1 rfl
      · exact hPDm huP
      · have htailC : ReachesPlus ((E \ P.image (fun p => (p, C)))
            ∪ P.image (fun p => (p, Dm)) ∪ {(Dm, C)}) C Dm := hv3 ▸ htail
        obtain ⟨p, hpP, hCp⟩ := H2 htailC rfl hC
        have hpC : (p, C) ∈ E := hP _ hpP
        rcases hCp with rfl | hCp
        · exact hd C (.single hpC)
        · exact hd C (reachesPlus_trans hCp (.single hpC))
  · exact hd v ((H1 hv hvD).2 hvD)

/-- Cloning a set of fresh nodes with `φ`-justified edges preserves
acyclicity: the map collapsing each clone onto its original is a graph
homomorphism into the old graph. -/
theorem isDAG_cloneRetarget {E E' : Finset (Nat × Nat)} {F : Finset Nat}
    {φ : Nat → Nat}
    (hE : ∀ e ∈ E',
      (e.1 ∉ F → e.2 ∉ F → e ∈ E) ∧
      (e.1 ∈ F → e.2 ∈ F → (φ e.1, φ e.2) ∈ E) ∧
      (e.1 ∈ F → e.2 ∉ F → (φ e.1, e.2) ∈ E) ∧
      (e.1 ∉ F → e.2 ∈ F → (e.1, φ e.2) ∈ E))
    (hd : isDAG E) : isDAG E' := by
  intro v hv
  have key : ∀ u w, (u, w) ∈ E' →
      ((fun n => if n ∈ F then φ n else n) u,
       (fun n => if n ∈ F then φ n else n) w) ∈ E := by
    intro u w h
    obtain ⟨h1, h2, h3, h4⟩ := hE _ h
    by_cases hu : u ∈ F <;> by_cases hw : w ∈ F <;>
      simp only [hu, hw, if_pos, if_neg, not_false_iff]
    · exact h2 hu hw
    · exact h3 hu hw
    · exact h4 hu hw
    · exact h1 hu hw
  exact hd _ (reachesPlus_map _ key hv)

/-- Every single mutation performed by `untangle`/`inflate` maps a DAG to
a DAG. -/
theorem step_isDAG {s t : RState} (h : Step s t) (hd : isDAG s.edges) :
    isDAG t.edges := by
  cases h with
  | sinkInsert F srcs hF hFe hsrc =>
    refine isDAG_sinkExtend ?_ hFe hd
    intro e he
    obtain ⟨p, hp, rfl⟩ := Finset.mem_image.1 he
    exact ⟨rfl, fun h2 => hsrc (h2 ▸ hp)⟩
  | dummyInsert C Dm P hDm hDme hC hP =>
    exact isDAG_dummyInsert hDme (fun h2 => hDm (h2 ▸ hC)) hP hd
  | cloneRetarget F φ E' hF hE =>
    exact isDAG_cloneRetarget hE hd
  | purgeDummy D p q hD hDe hp hq hpu hqu hpD hqD =>
    refine isDAG_of_reaches ?_ hd
    intro u v huv
    rcases Finset.mem_union.1 huv with h2 | h2
    · exact .single (Finset.mem_sdiff.1 h2).1
    · have h3 : (u, v) = (p, q) := Finset.mem_singleton.1 h2
      rw [Prod.ext_iff] at h3
      obtain ⟨rfl, rfl⟩ := h3
      exact .cons hp (.single hq)
  | purgeEmpty R hR hRe =>
    refine isDAG_of_reaches ?_ hd
    intro u v huv
    exact .single (Finset.mem_of_mem_filter _ huv)

/-- C1.  For every input graph on which `inflate` runs (a DAG, as required
by its `revng_assert(isDAG())` precondition), the graph left after any
sequence of the mutations `inflate` performs — dummy insertion, node and
subgraph cloning with edge retargeting, dummy purging and virtual-sink
removal — is still a DAG: `isDAG` holds on the output. -/
theorem c1_inflate_preserves_isDAG {s t : RState}
    (hd : isDAG s.edges) (hrun : InflateRun s t) : isDAG t.edges := by
  induction hrun with
  | refl => exact hd
  | tail _ hstep ih => exact step_isDAG hstep ih

/-- Witness for C1 at a concrete input: the one-edge DAG `0 → 1`, with
the virtual sink `2` inserted. -/
theorem c1_inflate_preserves_isDAG_witness :
    isDAG sWitA.edges ∧ isDAG sWitA1.edges := by
  have h0 : isDAG sWitA.edges := ranking_isDAG (fun n => n) (by decide)
  exact ⟨h0, c1_inflate_preserves_isDAG h0
    (Relation.ReflTransGen.single
      (Step.sinkInsert sWitA 2 {1} (by decide) (by decide) (by decide)))⟩

/-- All mutations preserve the zero-weight discipline of empty nodes:
freshly allocated artificial nodes get weight `0`, and clones copy both
the kind and the weight of their original. -/
theorem step_emptyZero {s t : RState} (h : Step s t) (he : EmptyZero s) :
    EmptyZero t := by
  cases h with
  | sinkInsert F srcs hF hFe hsrc =>
    intro n hn
    have hn2 : Function.update s.emptyB F true n = true := hn
    show Function.update s.weight F 0 n = 0
    by_cases hnF : n = F
    · subst hnF; simp [Function.update_same]
    · rw [Function.update_noteq hnF] at hn2 ⊢
      exact he n hn2
  | dummyInsert C Dm P hDm hDme hC hP =>
    intro n hn
    have hn2 : Function.update s.emptyB Dm true n = true := hn
    show Function.update s.weight Dm 0 n = 0
    by_cases hnF : n = Dm
    · subst hnF; simp [Function.update_same]
    · rw [Function.update_noteq hnF] at hn2 ⊢
      exact he n hn2
  | cloneRetarget F φ E' hF hE =>
    intro n hn
    have hn2 : (if n ∈ F then s.emptyB (φ n) else s.emptyB n) = true := hn
    show (if n ∈ F then s.weight (φ n) else s.weight n) = 0
    by_cases hnF : n ∈ F
    · rw [if_pos hnF] at hn2 ⊢
      exact he _ hn2
    · rw [if_neg hnF] at hn2 ⊢
      exact he n hn2
  | purgeDummy D p q hD hDe hp hq hpu hqu hpD hqD => exact he
  | purgeEmpty R hR hRe => exact he

/-- Run invariant for weight accounting of a fixed original node `v` of
weight `w`: either `w` was zero from the start, or `v` is still alive,
still weighs `w`, and is still its own original. -/
def WInv (w v : Nat) (t : RState) : Prop :=
  EmptyZero t ∧ (w = 0 ∨ (v ∈ t.alive ∧ t.weight v = w ∧ t.orig v = v))

theorem step_winv {w v : Nat} {s t : RState} (h : Step s t)
    (hi : WInv w v s) : WInv w v t := by
  obtain ⟨he, hrest⟩ := hi
  refine ⟨step_emptyZero h he, ?_⟩
  rcases hrest with h0 | ⟨hv, hwv, hov⟩
  · exact Or.inl h0
  cases h with
  | sinkInsert F srcs hF hFe hsrc =>
    have hvF : v ≠ F := fun h2 => hF (h2 ▸ hv)
    exact Or.inr ⟨Finset.mem_insert_of_mem hv,
      by dsimp only; rw [Function.update_noteq hvF]; exact hwv,
      by dsimp only; rw [Function.update_noteq hvF]; exact hov⟩
  | dummyInsert C Dm P hDm hDme hC hP =>
    have hvF : v ≠ Dm := fun h2 => hDm (h2 ▸ hv)
    exact Or.inr ⟨Finset.mem_insert_of_mem hv,
      by dsimp only; rw [Function.update_noteq hvF]; exact hwv,
      by dsimp only; rw [Function.update_noteq hvF]; exact hov⟩
  | cloneRetarget F φ E' hF hE =>
    have hvF : v ∉ F := fun hf => (hF v hf).1 hv
    exact Or.inr ⟨Finset.mem_union_left _ hv,
      by dsimp only; rw [if_neg hvF]; exact hwv,
      by dsimp only; rw [if_neg hvF]; exact hov⟩
  | purgeDummy D p q hD hDe hp hq hpu hqu hpD hqD =>
    by_cases hvD : v = D
    · exact Or.inl (by rw [← hwv, hvD]; exact he D hDe)
    · exact Or.inr ⟨Finset.mem_erase.2 ⟨hvD, hv⟩, hwv, hov⟩
  | purgeEmpty R hR hRe =>
    by_cases hvR : v = R
    · exact Or.inl (by rw [← hwv, hvR]; exact he R hRe)
    · exact Or.inr ⟨Finset.mem_erase.2 ⟨hvR, hv⟩, hwv, hov⟩

/-- C6.  For every node `v` of the input graph, after any run of
`untangle` or `inflate`, the summed weight of all live nodes in `v`'s
equivalence class (the original plus all clones made of it) is at least
the original node's weight: clones copy the weight of their original and
stay in its class, and the only nodes these passes ever remove
(`purgeDummies`, `purgeVirtualSink`) are empty, hence zero-weight. -/
theorem c6_classWeight_monotone {s t : RState} {v : Nat}
    (he : EmptyZero s) (hv : v ∈ s.alive) (ho : s.orig v = v)
    (hrun : InflateRun s t) : s.weight v ≤ classWeight t v := by
  have hinv : WInv (s.weight v) v t := by
    induction hrun with
    | refl => exact ⟨he, Or.inr ⟨hv, rfl, ho⟩⟩
    | tail _ hstep ih => exact step_winv hstep ih
  rcases hinv.2 with h0 | ⟨hvt, hwt, hot⟩
  · simp [h0]
  · have hmem : v ∈ t.alive.filter (fun u => t.orig u = v) :=
      Finset.mem_filter.2 ⟨hvt, hot⟩
    calc s.weight v = t.weight v := hwt.symm
    _ ≤ classWeight t v :=
      Finset.single_le_sum (fun i _ => Nat.zero_le _) hmem

/-- Witness for C6 at a concrete input: node `5` of weight `7` is cloned
as node `9`; the class weight afterwards is `14 ≥ 7`. -/
theorem c6_classWeight_monotone_witness :
    EmptyZero sWitB ∧ 5 ∈ sWitB.alive ∧ sWitB.orig 5 = 5
      ∧ sWitB.weight 5 ≤ classWeight sWitB1 5 := by
  have he : EmptyZero sWitB := fun _ h2 => nomatch h2
  refine ⟨he, by decide, rfl, ?_⟩
  exact c6_classWeight_monotone he (by decide) rfl
    (Relation.ReflTransGen.single
      (Step.cloneRetarget sWitB {9} (fun _ => 5) ∅ (by decide) (by decide)))

/-! ## Part B: theorems -/

/-- C8 (code bug).  `generateAst`'s pass (c) is claimed to recursively
replace every one-child `Sequence` by its child, so that no sequence with
fewer than two children survives anywhere.  On the two-child sequence
`astBugInput`, whose second child is a one-child sequence, the
`simplifyAtomicSequence` of the source leaves the tree completely
unchanged — the loop over the children of a multi-child sequence assigns
the recursive result to a loop-local pointer copy and never stores it
back — so the nested singleton sequence survives the post-passes. -/
theorem c8_nested_singleton_sequence_survives :
    simplifyAtomicSequence astBugInput = ASTOpt.some astBugInput
      ∧ seqAtLeastTwoO (simplifyAtomicSequence astBugInput) = false := by
  exact ⟨rfl, rfl⟩

/-- C10.  A `SequenceNode` with zero children is simplified to a null
node by `simplifyAtomicSequence` (lines 93-95), and consequently the
post-passes of `generateAst` can produce a null root: wrapping an empty
code leaf gives a one-child sequence, `simplifyDummies` drops the empty
leaf, and the resulting empty sequence simplifies to null, which
`AST.setRoot` then stores. -/
theorem c10_empty_sequence_null_root :
    simplifyAtomicSequence (ASTN.seqn ASTList.nil) = ASTOpt.none
      ∧ astPostPasses (ASTN.code true ASTOpt.none) = ASTOpt.none := by
  exact ⟨rfl, rfl⟩

/-! ## Part C: theorems -/

theorem contains_true_iff_mem (l : List Nat) (a : Nat) :
    l.contains a = true ↔ a ∈ l := by simp

theorem filter_erase_of_neg {l : List Nat} {d : Nat} {q : Nat → Bool}
    (hd : q d = false) : (l.erase d).filter q = l.filter q := by
  induction l with
  | nil => rfl
  | cons a tl ih =>
    rw [List.erase_cons]
    by_cases h : a = d
    · subst h
      simp [List.filter_cons, hd]
    · have hb : (a == d) = false := beq_eq_false_iff_ne.mpr h
      simp only [hb, if_neg, Bool.false_eq_true, not_false_iff,
        List.filter_cons, ih]

theorem purgeDummiesGo_of_none {g : CGraph}
    (h : purgeDummiesStep g = Option.none) :
    ∀ fuel, purgeDummiesGo fuel g = g := by
  intro fuel
  cases fuel with
  | zero => rfl
  | succ n => simp [purgeDummiesGo, h]

theorem purgeDummiesStep_some {g g2 : CGraph}
    (h : purgeDummiesStep g = Option.some g2) :
    ∃ d, g.nodes.find? (fun n => eligibleDummy g n) = Option.some d
      ∧ g2 = removeDummyNode g d := by
  unfold purgeDummiesStep at h
  cases hf : g.nodes.find? (fun n => eligibleDummy g n) with
  | none => rw [hf] at h; exact absurd h (by simp)
  | some d => rw [hf] at h; exact ⟨d, rfl, (Option.some.inj h).symm⟩

theorem purgeDummiesStep_go_none :
    ∀ (fuel : Nat) (g : CGraph), g.nodes.length ≤ fuel →
      purgeDummiesStep (purgeDummiesGo fuel g) = Option.none := by
  intro fuel
  induction fuel with
  | zero =>
    intro g hg
    have hnil : g.nodes = [] :=
      List.eq_nil_of_length_eq_zero (Nat.le_zero.mp hg)
    simp [purgeDummiesGo, purgeDummiesStep, hnil]
  | succ n ih =>
    intro g hg
    cases hstep : purgeDummiesStep g with
    | none => simp [purgeDummiesGo, hstep]
    | some g2 =>
      simp only [purgeDummiesGo, hstep]
      apply ih
      obtain ⟨d, hfind, rfl⟩ := purgeDummiesStep_some hstep
      have hdmem : d ∈ g.nodes := List.mem_of_find?_eq_some hfind
      have hlen : (removeDummyNode g d).nodes.length = g.nodes.length - 1 := by
        show (g.nodes.erase d).length = g.nodes.length - 1
        exact List.length_erase_of_mem hdmem
      rw [hlen]
      omega

theorem purgeDummies_fix (g : CGraph) :
    purgeDummiesStep (purgeDummies g) = Option.none :=
  purgeDummiesStep_go_none _ _ le_rfl

theorem purgeDummies_idem (g : CGraph) :
    purgeDummies (purgeDummies g) = purgeDummies g :=
  purgeDummiesGo_of_none (purgeDummies_fix g) _

theorem chainInv_step {A Dm B : Nat} {g g2 : CGraph}
    (hstep : purgeDummiesStep g = Option.some g2)
    (hinv : ChainInv A Dm B g) : ChainInv A Dm B g2 := by
  obtain ⟨d, hfind, rfl⟩ := purgeDummiesStep_some hstep
  obtain ⟨hnd, hA, hB, heA, heB, heDm, hchain⟩ := hinv
  have heli : eligibleDummy g d = true := List.find?_some hfind
  have hdmem : d ∈ g.nodes := List.mem_of_find?_eq_some hfind
  simp only [eligibleDummy, Bool.and_eq_true, beq_iff_eq] at heli
  obtain ⟨⟨hde, hplen⟩, hslen⟩ := heli
  have hdA : d ≠ A := fun h => by rw [h, heA] at hde; exact Bool.noConfusion hde
  have hdB : d ≠ B := fun h => by rw [h, heB] at hde; exact Bool.noConfusion hde
  obtain ⟨p0, hp0⟩ := List.length_eq_one.mp hplen
  obtain ⟨t0, ht0⟩ := List.length_eq_one.mp hslen
  have hp0mem : p0 ∈ g.nodes ∧ ((g.succs p0).contains d) = true := by
    have h2 : p0 ∈ predsOf g d := by
      rw [hp0]; exact List.mem_singleton.mpr rfl
    unfold predsOf at h2
    exact List.mem_filter.mp h2
  have hdInSuccsP0 : d ∈ g.succs p0 :=
    (contains_true_iff_mem _ _).mp hp0mem.2
  have ht0mem : t0 ∈ g.succs d := by rw [ht0]; exact List.mem_singleton.mpr rfl
  have hnodes2 : (removeDummyNode g d).nodes = g.nodes.erase d := rfl
  have hempty2 : ∀ n, (removeDummyNode g d).emptyN n = g.emptyN n :=
    fun _ => rfl
  have hsuccs2 : ∀ n, (removeDummyNode g d).succs n =
      if n = d then []
      else if n = p0 then
        (if (g.succs p0).contains t0 then (g.succs p0).erase d
         else (g.succs p0).map (fun x => if x = d then t0 else x))
      else g.succs n := by
    intro n
    show (if n = d then []
      else (moveEdgeTarget g ((predsOf g d).headD 0, d)
              ((g.succs d).headD 0)).succs n) = _
    rw [hp0, ht0]
    by_cases hnd2 : n = d
    · simp [hnd2]
    · by_cases hnp : n = p0
      · simp [moveEdgeTarget, hnd2, hnp]
      · simp [moveEdgeTarget, hnd2, hnp]
  refine ⟨hnodes2 ▸ hnd.erase d,
          hnodes2 ▸ (List.mem_erase_of_ne (Ne.symm hdA)).mpr hA,
          hnodes2 ▸ (List.mem_erase_of_ne (Ne.symm hdB)).mpr hB,
          (hempty2 A).trans heA, (hempty2 B).trans heB,
          (hempty2 Dm).trans heDm, ?_⟩
  rcases hchain with ⟨hDmem, hpred, hsucc⟩ | ⟨hDnot, hAB⟩
  · by_cases hdDm : d = Dm
    · have hp0A : p0 = A := by
        have h2 : ([A] : List Nat) = [p0] := hpred.symm.trans (hdDm ▸ hp0)
        exact (List.cons.inj h2).1.symm
      have ht0B : t0 = B := by
        have h2 : ([B] : List Nat) = [t0] := hsucc.symm.trans (hdDm ▸ ht0)
        exact (List.cons.inj h2).1.symm
      refine Or.inr ⟨?_, ?_⟩
      · rw [hnodes2, hdDm]
        exact hnd.not_mem_erase
      · rw [hsuccs2 A, if_neg (Ne.symm hdA), if_pos hp0A.symm]
        by_cases hcont : (g.succs p0).contains t0 = true
        · rw [if_pos hcont]
          refine (List.mem_erase_of_ne (Ne.symm hdB)).mpr ?_
          exact ht0B ▸ (contains_true_iff_mem _ _).mp hcont
        · rw [if_neg hcont]
          refine List.mem_map.mpr ⟨d, hdInSuccsP0, ?_⟩
          rw [if_pos rfl]
          exact ht0B
    · have hDmd : Dm ≠ d := Ne.symm hdDm
      have hDmp0 : Dm ≠ p0 := by
        intro h2
        rw [← h2, hsucc] at hdInSuccsP0
        exact hdB (List.mem_singleton.mp hdInSuccsP0)
      have ht0Dm : t0 ≠ Dm := by
        intro h2
        have hdp : d ∈ predsOf g Dm := List.mem_filter.mpr
          ⟨hdmem, (contains_true_iff_mem _ _).mpr (h2 ▸ ht0mem)⟩
        rw [hpred] at hdp
        exact hdA (List.mem_singleton.mp hdp)
      refine Or.inl ⟨hnodes2 ▸ (List.mem_erase_of_ne hDmd).mpr hDmem,
        ?_, by rw [hsuccs2 Dm, if_neg hDmd, if_neg hDmp0]; exact hsucc⟩
      show ((removeDummyNode g d).nodes).filter
        (fun m => ((removeDummyNode g d).succs m).contains Dm) = [A]
      rw [hnodes2]
      have hcongr : ∀ m ∈ g.nodes.erase d,
          ((removeDummyNode g d).succs m).contains Dm
            = (g.succs m).contains Dm := by
        intro m hm
        have hmd : m ≠ d := (hnd.mem_erase_iff.mp hm).1
        rw [hsuccs2 m, if_neg hmd]
        by_cases hmp : m = p0
        · rw [if_pos hmp]
          by_cases hcont : (g.succs p0).contains t0 = true
          · rw [if_pos hcont, Bool.eq_iff_iff,
              contains_true_iff_mem, contains_true_iff_mem,
              List.mem_erase_of_ne hDmd, hmp]
          · rw [if_neg hcont, Bool.eq_iff_iff,
              contains_true_iff_mem, contains_true_iff_mem, hmp]
            constructor
            · intro h2
              obtain ⟨x, hx, hfx⟩ := List.mem_map.mp h2
              by_cases hxd : x = d
              · rw [if_pos hxd] at hfx
                exact absurd hfx ht0Dm
              · rw [if_neg hxd] at hfx
                exact hfx ▸ hx
            · intro h2
              exact List.mem_map.mpr ⟨Dm, h2, by rw [if_neg hDmd]⟩
        · rw [if_neg hmp]
      rw [List.filter_congr hcongr]
      have hqd : ((g.succs d).contains Dm) = false := by
        have hDmt0 : Dm ≠ t0 := fun h2 => ht0Dm h2.symm
        rw [ht0]
        simp [hDmt0]
      calc (g.nodes.erase d).filter (fun m => (g.succs m).contains Dm)
          = g.nodes.filter (fun m => (g.succs m).contains Dm) :=
            filter_erase_of_neg hqd
        _ = [A] := hpred
  · refine Or.inr ⟨fun h2 => hDnot (List.mem_of_mem_erase (hnodes2 ▸ h2)), ?_⟩
    rw [hsuccs2 A, if_neg (Ne.symm hdA)]
    by_cases hAp : A = p0
    · rw [if_pos hAp]
      by_cases hcont : (g.succs p0).contains t0 = true
      · rw [if_pos hcont]
        exact (List.mem_erase_of_ne (Ne.symm hdB)).mpr (hAp ▸ hAB)
      · rw [if_neg hcont]
        exact List.mem_map.mpr ⟨B, hAp ▸ hAB, by rw [if_neg (Ne.symm hdB)]⟩
    · rw [if_neg hAp]
      exact hAB

theorem chainInv_go {A Dm B : Nat} : ∀ (fuel : Nat) (g : CGraph),
    ChainInv A Dm B g → ChainInv A Dm B (purgeDummiesGo fuel g) := by
  intro fuel
  induction fuel with
  | zero => intro g h; exact h
  | succ n ih =>
    intro g h
    cases hstep : purgeDummiesStep g with
    | none => simp only [purgeDummiesGo, hstep]; exact h
    | some g2 =>
      simp only [purgeDummiesGo, hstep]
      exact ih g2 (chainInv_step hstep h)

/-- C7 (amended).  For a graph with distinct node ids containing a chain
`A → Dm → B` where `Dm` is empty with exactly one predecessor and one
successor, and where the endpoints `A` and `B` are themselves non-empty
(so they are not eligible for purging), `purgeDummies` removes `Dm` and
connects `A` directly to `B`; re-running `purgeDummies` on the result is
a no-op. -/
theorem c7_purgeDummies_chain {g : CGraph} {A Dm B : Nat}
    (hnd : g.nodes.Nodup)
    (hA : A ∈ g.nodes) (hB : B ∈ g.nodes) (hDmem : Dm ∈ g.nodes)
    (heA : g.emptyN A = false) (heB : g.emptyN B = false)
    (heDm : g.emptyN Dm = true)
    (hpred : predsOf g Dm = [A]) (hsucc : g.succs Dm = [B]) :
    B ∈ (purgeDummies g).succs A ∧ Dm ∉ (purgeDummies g).nodes
      ∧ purgeDummies (purgeDummies g) = purgeDummies g := by
  have hinv : ChainInv A Dm B (purgeDummies g) :=
    chainInv_go _ _ ⟨hnd, hA, hB, heA, heB, heDm,
      Or.inl ⟨hDmem, hpred, hsucc⟩⟩
  have hnone : purgeDummiesStep (purgeDummies g) = Option.none :=
    purgeDummies_fix g
  have hfindnone : (purgeDummies g).nodes.find?
      (fun n => eligibleDummy (purgeDummies g) n) = Option.none := by
    cases hf : (purgeDummies g).nodes.find?
        (fun n => eligibleDummy (purgeDummies g) n) with
    | none => rfl
    | some d =>
      exfalso
      unfold purgeDummiesStep at hnone
      rw [hf] at hnone
      exact Option.noConfusion hnone
  have hall := List.find?_eq_none.mp hfindnone
  obtain ⟨hnd2, hA2, hB2, heA2, heB2, heDm2, hchain⟩ := hinv
  rcases hchain with ⟨hDmem2, hpred2, hsucc2⟩ | ⟨hDnot, hAB⟩
  · exfalso
    apply hall Dm hDmem2
    simp [eligibleDummy, heDm2, hpred2, hsucc2]
  · exact ⟨hAB, hDnot, purgeDummies_idem g⟩

/-- Witness for C7 at a concrete input: the chain `0 → 1 → 2 → 3` with
dummy `2`; the purge yields the edge `1 → 3` and is idempotent. -/
theorem c7_purgeDummies_chain_witness :
    gC7good.nodes.Nodup ∧ predsOf gC7good 2 = [1]
      ∧ gC7good.succs 2 = [3] ∧ gC7good.emptyN 2 = true
      ∧ 3 ∈ (purgeDummies gC7good).succs 1
      ∧ 2 ∉ (purgeDummies gC7good).nodes
      ∧ purgeDummies (purgeDummies gC7good) = purgeDummies gC7good := by
  have h := @c7_purgeDummies_chain gC7good 1 2 3 (by decide) (by decide)
    (by decide) (by decide) (by decide) (by decide) (by decide) (by decide)
    (by decide)
  exact ⟨by decide, by decide, by decide, by decide, h.1, h.2.1, h.2.2⟩

/-- C7 counterexample.  In the chain `10 → 1 → 2 → 3` of `gC7bad`, node
`2` is an empty dummy with exactly one predecessor (`1`) and one
successor (`3`), so the claim asserts that `purgeDummies` connects `1`
directly to `3`.  But node `1` is itself an empty one-predecessor/
one-successor node, is purged first, and the output contains neither the
node `1` nor any edge `1 → 3`: the claim fails as stated for graphs in
which the chain endpoints are themselves purgeable. -/
theorem c7_counterexample :
    gC7bad.emptyN 2 = true ∧ predsOf gC7bad 2 = [1]
      ∧ gC7bad.succs 2 = [3]
      ∧ (purgeDummies gC7bad).succs 1 = []
      ∧ 1 ∉ (purgeDummies gC7bad).nodes
      ∧ 3 ∉ (purgeDummies gC7bad).succs 1 := by decide

/-! ## Part D: theorems -/

/-- C5.  In `untangle`, a conditional whose optimization is aborted in
step 3 — both arms have a non-empty reachable-but-not-dominated subset,
or the two arms' reachable sets (with the postdominator excluded)
intersect — is skipped by `continue` and its iteration leaves the graph
unchanged. -/
theorem c5_untangle_skip_unchanged (g : CGraph) (w : Nat → Nat)
    (entry sink c pd : Nat)
    (hlen : (g.succs c).length = 2)
    (hskip : (untangleNotDomThen g entry c pd ≠ []
        ∧ untangleNotDomElse g entry c pd ≠ [])
      ∨ untangleIntersection g c pd ≠ []) :
    untangleProcessConditional g w entry sink c pd = Option.some g := by
  unfold untangleProcessConditional
  rw [if_pos hlen]
  rcases hskip with ⟨h1, h2⟩ | h3
  · rw [if_pos ⟨List.length_pos.mpr h1, List.length_pos.mpr h2⟩]
  · by_cases h12 : 0 < (untangleNotDomThen g entry c pd).length
        ∧ 0 < (untangleNotDomElse g entry c pd).length
    · rw [if_pos h12]
    · rw [if_neg h12, if_pos (List.length_pos.mpr h3)]

/-- Witness for C5 at a concrete input: in `gC5wit` the two arms of the
conditional `0` both reach the shared node `3` (the intersection is
non-empty), so the iteration returns the graph unchanged. -/
theorem c5_untangle_skip_unchanged_witness :
    (gC5wit.succs 0).length = 2
      ∧ untangleIntersection gC5wit 0 4 = [3]
      ∧ ipdom gC5wit 5 0 = Option.some 4
      ∧ untangleProcessConditional gC5wit (fun _ => 1) 0 5 0 4
          = Option.some gC5wit := by
  refine ⟨by decide, by decide, by decide, ?_⟩
  exact c5_untangle_skip_unchanged gC5wit (fun _ => 1) 0 5 0 4 (by decide)
    (Or.inr (by decide))

/-- C4 (amended).  For a conditional that passed the step-3 checks, the
postdominator-to-sink subgraph is cloned and the else-dominated (or
conditional-sourced) predecessor edges of the postdominator are
retargeted onto the clone exactly when `thenSide = thenWeight +
postdomWeight` and `armSum = thenWeight + elseWeight` both strictly
exceed `elseSide = elseWeight + postdomWeight` (via `isGreater`, strict
`>` with multiplicative factor 1) AND the tracked immediate
postdominator is not the virtual sink; when neither this condition nor
its then/else-swapped mirror holds, the graph is left unchanged. -/
theorem c4_untangle_threshold (g : CGraph) (w : Nat → Nat)
    (entry sink c pd : Nat)
    (hlen : (g.succs c).length = 2)
    (hskip1 : ¬(0 < (untangleNotDomThen g entry c pd).length
        ∧ 0 < (untangleNotDomElse g entry c pd).length))
    (hskip2 : ¬(0 < (untangleIntersection g c pd).length)) :
    (isGreater (untangleThenWeight g w entry c pd
          + untanglePostDomWeight g w pd sink)
        (untangleElseWeight g w entry c pd
          + untanglePostDomWeight g w pd sink) = true →
      isGreater (untangleThenWeight g w entry c pd
          + untangleElseWeight g w entry c pd)
        (untangleElseWeight g w entry c pd
          + untanglePostDomWeight g w pd sink) = true →
      pd ≠ sink →
      untangleProcessConditional g w entry sink c pd
        = untangleSplit g entry c pd sink ((g.succs c).getD 1 0))
    ∧ (¬(isGreater (untangleThenWeight g w entry c pd
            + untanglePostDomWeight g w pd sink)
          (untangleElseWeight g w entry c pd
            + untanglePostDomWeight g w pd sink) = true
        ∧ isGreater (untangleThenWeight g w entry c pd
            + untangleElseWeight g w entry c pd)
          (untangleElseWeight g w entry c pd
            + untanglePostDomWeight g w pd sink) = true
        ∧ pd ≠ sink) →
      ¬(isGreater (untangleElseWeight g w entry c pd
            + untanglePostDomWeight g w pd sink)
          (untangleThenWeight g w entry c pd
            + untanglePostDomWeight g w pd sink) = true
        ∧ isGreater (untangleThenWeight g w entry c pd
            + untangleElseWeight g w entry c pd)
          (untangleThenWeight g w entry c pd
            + untanglePostDomWeight g w pd sink) = true
        ∧ pd ≠ sink) →
      untangleProcessConditional g w entry sink c pd = Option.some g) := by
  constructor
  · intro h1 h2 h3
    unfold untangleProcessConditional
    rw [if_pos hlen, if_neg hskip1, if_neg hskip2, if_pos ⟨h1, h2, h3⟩]
  · intro hno1 hno2
    unfold untangleProcessConditional
    rw [if_pos hlen, if_neg hskip1, if_neg hskip2, if_neg hno1, if_neg hno2]

/-- Witness for C4 at a concrete input: in `gC4good` (postdominator `5`,
not the sink) the then-side weights satisfy both strict comparisons, and
the iteration performs the split: the else arm `4` is retargeted onto
the clone `12` of the postdominator. -/
theorem c4_untangle_threshold_witness :
    ipdom gC4good 6 1 = Option.some 5
      ∧ untangleProcessConditional gC4good wC4good 0 6 1 5
          = untangleSplit gC4good 0 1 5 6 4
      ∧ (untangleSplit gC4good 0 1 5 6 4).map (fun gg => gg.succs 4)
          = Option.some [12]
      ∧ (untangleSplit gC4good 0 1 5 6 4).map (fun gg => gg.succs 12)
          = Option.some [6] := by
  refine ⟨by decide, ?_, by decide, by decide⟩
  exact (c4_untangle_threshold gC4good wC4good 0 6 1 5 (by decide)
    (by decide) (by decide)).1 (by decide) (by decide) (by decide)

/-- C4 counterexample.  In `gC4bad` the conditional `1` passes the step-3
checks and both strict weight comparisons of the claim hold (`thenSide =
5 > 0 = elseSide`, `armSum = 5 > 0 = elseSide`), yet its tracked
immediate postdominator is the virtual sink `6`, so the code performs no
clone and no retargeting: the iteration returns the graph unchanged.
The claim's "if and only if" is missing the `PostDominator != Sink`
conjunct of lines 767 and 804. -/
theorem c4_counterexample :
    ipdom gC4bad 6 1 = Option.some 6
      ∧ isGreater (untangleThenWeight gC4bad wC4bad 0 1 6
            + untanglePostDomWeight gC4bad wC4bad 6 6)
          (untangleElseWeight gC4bad wC4bad 0 1 6
            + untanglePostDomWeight gC4bad wC4bad 6 6) = true
      ∧ isGreater (untangleThenWeight gC4bad wC4bad 0 1 6
            + untangleElseWeight gC4bad wC4bad 0 1 6)
          (untangleElseWeight gC4bad wC4bad 0 1 6
            + untanglePostDomWeight gC4bad wC4bad 6 6) = true
      ∧ ¬(0 < (untangleNotDomThen gC4bad 0 1 6).length
          ∧ 0 < (untangleNotDomElse gC4bad 0 1 6).length)
      ∧ ¬(0 < (untangleIntersection gC4bad 1 6).length)
      ∧ untangleProcessConditional gC4bad wC4bad 0 6 1 6
          = Option.some gC4bad := by
  refine ⟨by decide, by decide, by decide, by decide, by decide, ?_⟩
  rfl

/-! ## Part E: theorems -/

theorem contains_insertSet_self (l : List Nat) (x : Nat) :
    (insertSet l x).contains x = true := by
  unfold insertSet
  by_cases h : l.contains x = true
  · rw [if_pos h]; exact h
  · rw [if_neg h]
    exact (contains_true_iff_mem _ _).mpr (List.mem_append_right _
      (List.mem_singleton.mpr rfl))

theorem contains_insertSet_of (l : List Nat) (x y : Nat)
    (h : l.contains y = true) : (insertSet l x).contains y = true := by
  unfold insertSet
  by_cases h2 : l.contains x = true
  · rw [if_pos h2]; exact h
  · rw [if_neg h2]
    exact (contains_true_iff_mem _ _).mpr
      (List.mem_append_left _ ((contains_true_iff_mem _ _).mp h))

theorem append_singleton_erase {l : List Nat} {a : Nat} (h : a ∉ l) :
    (l ++ [a]).erase a = l := by
  induction l with
  | nil => simp
  | cons b tl ih =>
    have hba : (b == a) = false :=
      beq_eq_false_iff_ne.mpr (fun h2 => h (h2 ▸ List.mem_cons_self b tl))
    simp only [List.cons_append, List.erase_cons, hba, Bool.false_eq_true,
      if_neg, not_false_iff]
    rw [ih (fun h2 => h (List.mem_cons_of_mem b h2))]

theorem insertSet_erase_of_not_mem {l : List Nat} {a : Nat}
    (h : l.contains a = false) : (insertSet l a).erase a = l := by
  unfold insertSet
  rw [if_neg (by rw [h]; exact Bool.noConfusion)]
  exact append_singleton_erase
    (fun hm => by rw [(contains_true_iff_mem l a).mpr hm] at h
                  exact Bool.noConfusion h)

theorem foldMove_nodes (P : List Nat) (cond : Nat → Bool)
    (cand dm : Nat) (g0 : CGraph) :
    (P.foldl (fun gg p =>
      if cond p then moveEdgeTarget gg (p, cand) dm else gg) g0).nodes
    = g0.nodes := by
  induction P generalizing g0 with
  | nil => rfl
  | cons p tl ih =>
    rw [List.foldl_cons, ih]
    by_cases h : cond p = true
    · rw [if_pos h]; rfl
    · rw [if_neg h]

theorem foldMove_emptyN (P : List Nat) (cond : Nat → Bool)
    (cand dm : Nat) (g0 : CGraph) (n : Nat) :
    (P.foldl (fun gg p =>
      if cond p then moveEdgeTarget gg (p, cand) dm else gg) g0).emptyN n
    = g0.emptyN n := by
  induction P generalizing g0 with
  | nil => rfl
  | cons p tl ih =>
    rw [List.foldl_cons, ih]
    by_cases h : cond p = true
    · rw [if_pos h]; rfl
    · rw [if_neg h]

theorem foldMove_succs (P : List Nat) (hnd : P.Nodup) (cond : Nat → Bool)
    (cand dm : Nat) (g0 : CGraph) (n : Nat) :
    (P.foldl (fun gg p =>
      if cond p then moveEdgeTarget gg (p, cand) dm else gg) g0).succs n
    = if n ∈ P ∧ cond n = true then
        (if (g0.succs n).contains dm then (g0.succs n).erase cand
         else (g0.succs n).map (fun x => if x = cand then dm else x))
      else g0.succs n := by
  induction P generalizing g0 with
  | nil => simp
  | cons p tl ih =>
    have key : ((if cond p then moveEdgeTarget g0 (p, cand) dm
        else g0)).succs n =
        if n = p ∧ cond p = true then
          (if (g0.succs p).contains dm then (g0.succs p).erase cand
           else (g0.succs p).map (fun x => if x = cand then dm else x))
        else g0.succs n := by
      by_cases hc : cond p = true
      · rw [if_pos hc]
        by_cases hm : n = p
        · rw [if_pos (⟨hm, hc⟩ : n = p ∧ cond p = true)]
          simp [moveEdgeTarget, hm]
        · rw [if_neg (fun h2 => hm h2.1)]
          simp [moveEdgeTarget, hm]
      · rw [if_neg hc, if_neg (fun h2 => hc h2.2)]
    rw [List.foldl_cons, ih hnd.of_cons, key]
    by_cases hnp : n = p
    · have hnin : n ∉ tl := fun h2 => (List.nodup_cons.mp hnd).1 (hnp ▸ h2)
      rw [if_neg (show ¬(n ∈ tl ∧ cond n = true) from fun h2 => hnin h2.1)]
      by_cases hcn : cond n = true
      · rw [if_pos (show n = p ∧ cond p = true from ⟨hnp, hnp ▸ hcn⟩),
          if_pos (show n ∈ p :: tl ∧ cond n = true from
            ⟨List.mem_cons.mpr (Or.inl hnp), hcn⟩)]
        rw [hnp]
      · rw [if_neg (show ¬(n = p ∧ cond p = true) from
            fun h2 => hcn (by rw [hnp]; exact h2.2)),
          if_neg (show ¬(n ∈ p :: tl ∧ cond n = true) from
            fun h2 => hcn h2.2)]
    · rw [if_neg (show ¬(n = p ∧ cond p = true) from fun h2 => hnp h2.1)]
      by_cases hn : n ∈ tl
      · by_cases hcn : cond n = true
        · rw [if_pos (show n ∈ tl ∧ cond n = true from ⟨hn, hcn⟩),
            if_pos (show n ∈ p :: tl ∧ cond n = true from
              ⟨List.mem_cons.mpr (Or.inr hn), hcn⟩)]
        · rw [if_neg (show ¬(n ∈ tl ∧ cond n = true) from
              fun h2 => hcn h2.2),
            if_neg (show ¬(n ∈ p :: tl ∧ cond n = true) from
              fun h2 => hcn h2.2)]
      · rw [if_neg (show ¬(n ∈ tl ∧ cond n = true) from fun h2 => hn h2.1),
          if_neg (show ¬(n ∈ p :: tl ∧ cond n = true) from fun h2 => by
            rcases List.mem_cons.mp h2.1 with h3 | h3
            · exact hnp h3
            · exact hn h3)]

theorem inflateInsertDummy_spec (s1 : InfState) (cand : Nat) (ipd : Bool)
    (hnd : s1.g.nodes.Nodup)
    (hfreshS : ∀ n ∈ s1.g.nodes, s1.nextId ∉ s1.g.succs n) :
    (inflateInsertDummy s1 cand ipd).g.nodes = s1.g.nodes ++ [s1.nextId]
    ∧ (inflateInsertDummy s1 cand ipd).g.succs s1.nextId = [cand]
    ∧ (inflateInsertDummy s1 cand ipd).g.emptyN s1.nextId = true
    ∧ (inflateInsertDummy s1 cand ipd).cloneToOrig s1.nextId = s1.nextId
    ∧ (inflateInsertDummy s1 cand ipd).workList.contains cand = true
    ∧ (inflateInsertDummy s1 cand ipd).visited = s1.visited.erase cand
    ∧ (∀ p, p ≠ s1.nextId →
        (inflateInsertDummy s1 cand ipd).g.succs p =
          if p ∈ predsOf s1.g cand
              ∧ (s1.visited.erase cand).contains p = true then
            (s1.g.succs p).map (fun x => if x = cand then s1.nextId else x)
          else s1.g.succs p)
    ∧ (inflateInsertDummy s1 cand ipd).postDomMap s1.curCond =
        (if (ipd && (!(s1.g.emptyN cand) || (cand == s1.sink))) = true
         then s1.nextId else s1.postDomMap s1.curCond) := by
  have hndP : (predsOf s1.g cand).Nodup := List.Nodup.filter _ hnd
  refine ⟨?_, ?_, ?_, ?_, ?_, rfl, ?_, ?_⟩
  · show ((predsOf s1.g cand).foldl _ s1.g).nodes ++ [s1.nextId] = _
    rw [foldMove_nodes]
  · show (if s1.nextId = s1.nextId then [cand] else _) = [cand]
    rw [if_pos rfl]
  · show (if s1.nextId = s1.nextId then true else _) = true
    rw [if_pos rfl]
  · show (if s1.nextId = s1.nextId then s1.nextId else _) = s1.nextId
    rw [if_pos rfl]
  · exact contains_insertSet_of _ _ _ (contains_insertSet_self _ _)
  · intro p hp
    show (if p = s1.nextId then [cand] else _) = _
    rw [if_neg hp]
    rw [foldMove_succs _ hndP]
    by_cases hcond : p ∈ predsOf s1.g cand
        ∧ ((s1.visited.erase cand).contains p) = true
    · have hp2 : p ∈ List.filter (fun m => (s1.g.succs m).contains cand)
          s1.g.nodes := hcond.1
      rw [if_pos hcond, if_pos hcond]
      rw [if_neg (show ¬((s1.g.succs p).contains s1.nextId = true) from
        fun h2 => hfreshS p (List.mem_filter.mp hp2).1
          ((contains_true_iff_mem _ _).mp h2))]
    · rw [if_neg hcond, if_neg hcond]
  · show (if (ipd && (!(s1.g.emptyN cand) || (cand == s1.sink))) = true
        then (fun n => if n = s1.curCond then s1.nextId else s1.postDomMap n)
        else s1.postDomMap) s1.curCond = _
    by_cases hc : (ipd && (!(s1.g.emptyN cand) || (cand == s1.sink))) = true
    · rw [if_pos hc, if_pos hc]
      exact if_pos rfl
    · rw [if_neg hc, if_neg hc]

/-- C3 (amended).  During the per-conditional worklist processing of
`inflate`, for every visited candidate that is in the equivalence class
of the conditional's currently tracked immediate post-dominator, still
has at least one unvisited predecessor, AND has more than two
predecessors (the `Candidate->predecessor_size() > 2` half of the
decision at line 1126), a fresh dummy node is inserted that intercepts
exactly the edges coming from already-visited predecessors (the
candidate itself is not cloned), the post-dominator is re-queued for
later processing, and the postdominator-tracking map is repointed at the
dummy whenever the candidate is non-empty or is the sink.  With at most
two predecessors the candidate is cloned instead. -/
theorem c3_postdom_dummy_insertion (s : InfState) (cand : Nat)
    (hin : s.workList.contains cand = true)
    (hpd : ((s.eqClass (s.postDomMap s.curCond)).contains cand) = true)
    (hunv : predecessorsVisitedB s cand = false)
    (hpreds : 2 < (predsOf s.g cand).length)
    (hnv : s.visited.contains cand = false)
    (hfreshS : ∀ n ∈ s.g.nodes, s.nextId ∉ s.g.succs n)
    (hfreshN : s.nextId ∉ s.g.nodes)
    (hnodesnd : s.g.nodes.Nodup) :
    outState (inflateVisit s cand)
      = Option.some (inflateInsertDummy
          { s with visited := insertSet s.visited cand,
                   workList := s.workList.erase cand } cand true)
    ∧ ∀ t, outState (inflateVisit s cand) = Option.some t →
        t.g.emptyN s.nextId = true
        ∧ t.g.succs s.nextId = [cand]
        ∧ t.cloneToOrig s.nextId = s.nextId
        ∧ t.g.nodes = s.g.nodes ++ [s.nextId]
        ∧ t.workList.contains cand = true
        ∧ t.visited = s.visited
        ∧ (∀ p, p ∈ predsOf s.g cand →
            t.g.succs p = if s.visited.contains p = true then
              (s.g.succs p).map (fun x => if x = cand then s.nextId else x)
            else s.g.succs p)
        ∧ (∀ n, n ∉ predsOf s.g cand → n ≠ s.nextId →
            t.g.succs n = s.g.succs n)
        ∧ t.postDomMap s.curCond =
            (if (!(s.g.emptyN cand) || (cand == s.sink)) = true
             then s.nextId else s.postDomMap s.curCond) := by
  have hstep : inflateVisit s cand = inflateMutate
      { s with visited := insertSet s.visited cand,
               workList := s.workList.erase cand } cand true := by
    unfold inflateVisit
    rw [if_neg (show ¬(s.workList.contains cand = false) from
          fun h => by rw [hin] at h; exact Bool.noConfusion h),
        if_pos hpd, if_pos hunv]
  have hmut : inflateMutate
      { s with visited := insertSet s.visited cand,
               workList := s.workList.erase cand } cand true
      = VisitOutcome.cont (inflateInsertDummy
          { s with visited := insertSet s.visited cand,
                   workList := s.workList.erase cand } cand true) := by
    unfold inflateMutate
    rw [if_pos (show 2 < (predsOf ({ s with
          visited := insertSet s.visited cand,
          workList := s.workList.erase cand } : InfState).g cand).length
        ∧ (true : Bool) = true from ⟨hpreds, rfl⟩)]
  refine ⟨by rw [hstep, hmut]; rfl, ?_⟩
  intro t ht
  rw [hstep, hmut] at ht
  have ht2 : t = inflateInsertDummy
      { s with visited := insertSet s.visited cand,
               workList := s.workList.erase cand } cand true :=
    (Option.some.inj ht).symm
  subst ht2
  have hvis2 : (insertSet s.visited cand).erase cand = s.visited :=
    insertSet_erase_of_not_mem hnv
  obtain ⟨h1, h2, h3, h4, h5, h6, h7, h8⟩ := inflateInsertDummy_spec
    { s with visited := insertSet s.visited cand,
             workList := s.workList.erase cand } cand true
    hnodesnd hfreshS
  refine ⟨h3, h2, h4, h1, h5, h6.trans hvis2, ?_, ?_, ?_⟩
  · intro p hp
    have hp2 : p ∈ List.filter (fun m => (s.g.succs m).contains cand)
        s.g.nodes := hp
    have hpne : p ≠ s.nextId :=
      fun h => hfreshN (h ▸ (List.mem_filter.mp hp2).1)
    have h7b := h7 p hpne
    dsimp only at h7b
    rw [hvis2] at h7b
    by_cases hv : s.visited.contains p = true
    · rw [h7b, if_pos (show p ∈ predsOf s.g cand
          ∧ s.visited.contains p = true from ⟨hp, hv⟩), if_pos hv]
    · rw [h7b, if_neg (show ¬(p ∈ predsOf s.g cand
          ∧ s.visited.contains p = true) from fun h9 => hv h9.2),
        if_neg (show ¬(s.visited.contains p = true) from hv)]
  · intro n hn hne
    have h7b := h7 n hne
    dsimp only at h7b
    rw [hvis2] at h7b
    rw [h7b, if_neg (show ¬(n ∈ predsOf s.g cand
        ∧ s.visited.contains n = true) from fun h9 => hn h9.1)]
  · have h8b := h8
    rw [Bool.true_and] at h8b
    exact h8b

/-- Witness for C3 at a concrete input: in `sC3good` the candidate `4` is
the tracked postdominator of the conditional `0` with three predecessors
(`1` and `2` visited, `3` not), so the dummy `100` is inserted, the
visited predecessors are retargeted onto it, the candidate is re-queued
and the postdominator map is repointed at the dummy. -/
theorem c3_postdom_dummy_insertion_witness :
    sC3good.workList.contains 4 = true
      ∧ ((sC3good.eqClass (sC3good.postDomMap sC3good.curCond)).contains 4)
          = true
      ∧ predecessorsVisitedB sC3good 4 = false
      ∧ 2 < (predsOf sC3good.g 4).length
      ∧ outState (inflateVisit sC3good 4)
          = Option.some (inflateInsertDummy
              { sC3good with visited := insertSet sC3good.visited 4,
                             workList := sC3good.workList.erase 4 } 4 true)
      ∧ (outState (inflateVisit sC3good 4)).map (fun t => t.g.succs 100)
          = Option.some [4]
      ∧ (outState (inflateVisit sC3good 4)).map (fun t => t.g.emptyN 100)
          = Option.some true
      ∧ (outState (inflateVisit sC3good 4)).map (fun t => t.g.succs 1)
          = Option.some [100]
      ∧ (outState (inflateVisit sC3good 4)).map (fun t => t.g.succs 3)
          = Option.some [4]
      ∧ (outState (inflateVisit sC3good 4)).map
          (fun t => t.workList.contains 4) = Option.some true
      ∧ (outState (inflateVisit sC3good 4)).map
          (fun t => t.postDomMap t.curCond) = Option.some 100 := by
  refine ⟨by decide, by decide, by decide, by decide, ?_, by decide,
    by decide, by decide, by decide, by decide, by decide⟩
  exact (c3_postdom_dummy_insertion sC3good 4 (by decide) (by decide)
    (by decide) (by decide) (by decide) (by decide) (by decide)
    (by decide)).1

/-- C3 counterexample.  In `sC3bad` the candidate `3` is the tracked
immediate postdominator of the conditional `0` and still has the
unvisited predecessor `2`, but it has only two predecessors, so the
decision at line 1126 takes the duplication branch: the candidate is
cloned as node `100` (a non-empty clone recorded in
`CloneToOriginalMap`), the already-visited predecessor `1` keeps its
edge to `3` (no dummy intercepts it), the candidate is not re-queued,
and the postdominator map still points at `3`.  The claim, which
promises a dummy for every postdominator candidate with unvisited
predecessors, fails on this input. -/
theorem c3_counterexample :
    sC3bad.workList.contains 3 = true
      ∧ ((sC3bad.eqClass (sC3bad.postDomMap sC3bad.curCond)).contains 3)
          = true
      ∧ predecessorsVisitedB sC3bad 3 = false
      ∧ (predsOf sC3bad.g 3).length = 2
      ∧ (outState (inflateVisit sC3bad 3)).map (fun t => t.g.nodes)
          = Option.some [0, 1, 2, 3, 4, 100]
      ∧ (outState (inflateVisit sC3bad 3)).map (fun t => t.cloneToOrig 100)
          = Option.some 3
      ∧ (outState (inflateVisit sC3bad 3)).map (fun t => t.g.emptyN 100)
          = Option.some false
      ∧ (outState (inflateVisit sC3bad 3)).map (fun t => t.g.succs 1)
          = Option.some [3]
      ∧ (outState (inflateVisit sC3bad 3)).map (fun t => t.g.succs 2)
          = Option.some [100]
      ∧ (outState (inflateVisit sC3bad 3)).map
          (fun t => t.workList.contains 3) = Option.some false
      ∧ (outState (inflateVisit sC3bad 3)).map
          (fun t => t.postDomMap t.curCond) = Option.some 3 := by decide
